import Mathlib

/-!
# Verification of the Charms spell protocol core

A shallow embedding, in Lean 4, of the core data model and algorithms of the
Charms repository:

* the data model of `charms-data` (`UtxoId`, `App`, `Data`, byte encodings),
* the normalized-spell model and well-formedness checker of
  `charms-client/src/lib.rs` (`NormalizedSpell`, `well_formed`, `to_tx`,
  `charms`, `utxo_id_hash`),
* spell normalization of `src/spell.rs` (`Spell::normalized`),
* the ledger-specific extraction protocol of `charms-client/src/bitcoin_tx.rs`
  and `charms-client/src/cardano_tx.rs`.

Modelling conventions:

* Machine integers (`u32`, `usize`, `u8`) are modelled as `Nat`; byte strings
  as `List Nat` with each element `< 256` where it matters.
* Rust `BTreeMap k v` is modelled as `List (k × v)` and `BTreeSet k` as
  `List k`.  Maps built by the code itself are built with `mapOfList` /
  `setOfList`, which reproduce the B-tree behaviour: entries sorted by key,
  duplicate keys collapsed with last-insert-wins (for `BTreeMap::insert` /
  iterator `collect`).  Maps received from outside carry their well-formedness
  (key-sortedness/nodup) as hypotheses where a theorem needs it.
* Rust functions that can panic are modelled as `Option`-valued functions
  (`none` = panic); fallible functions return `Except`/`Option` as
  appropriate.
* The resolver map `BTreeMap<TxId, (Option<NormalizedSpell>, usize)>` is
  modelled as a function `TxId → Option (Option NormalizedSpell × Nat)`
  (`well_formed` and `to_tx` only ever access it through `get`/indexing).
* SHA-256 (the `sha2` crate) is implemented in full, so `utxo_id_hash` is the
  real content hash.
-/

namespace Charms

/-- Rust `charms_data::TxId`: a 32-byte transaction id (stored in Bitcoin's
reversed byte order).  Modelled as a byte list of length 32. -/
abbrev TxId := List Nat

/-- Rust `charms_data::B32`: a 32-byte value. -/
abbrev B32 := List Nat

/-- Rust `charms_data::Data`: an opaque byte blob (CBOR-serialized value);
equality and ordering are byte-wise. -/
abbrev Data := List Nat

/-- Rust `Data::empty()`. -/
def Data.empty : Data := []

/-- Rust `charms_data::UtxoId(pub TxId, pub u32)`. -/
structure UtxoId where
  txid : TxId
  vout : Nat
deriving DecidableEq, Repr

/-- Modelled from the spec: `charms_data::App` (the crate version used by
`charms-client` is not in the source tree; the spec defines an App as a
single-character type tag, an anchoring `UtxoId` and a 32-byte
verification-key hash, ordered lexicographically over the three fields). -/
structure App where
  tag : Char
  identity : UtxoId
  vk : B32
deriving DecidableEq, Repr

/-- Sort key realizing the (derived, lexicographic) `Ord` of `UtxoId`. -/
def UtxoId.sortKey (u : UtxoId) : Lex (List Nat × Nat) := toLex (u.txid, u.vout)

theorem UtxoId.sortKey_inj_utxo : Function.Injective UtxoId.sortKey := by
  intro x y h
  cases x; cases y
  simpa [UtxoId.sortKey, toLex, Prod.ext_iff, UtxoId.mk.injEq] using h

instance : LinearOrder UtxoId := LinearOrder.lift' UtxoId.sortKey UtxoId.sortKey_inj_utxo

/-- Sort key realizing the lexicographic order of `App` over
`(tag, identity, vk)`. -/
def App.sortKey (a : App) : Lex (Char × Lex (Lex (List Nat × Nat) × List Nat)) :=
  toLex (a.tag, toLex (a.identity.sortKey, a.vk))

theorem App.sortKey_inj_app : Function.Injective App.sortKey := by
  intro x y h
  cases x; cases y
  simp only [App.sortKey, toLex_inj, Prod.mk.injEq, App.mk.injEq] at h ⊢
  exact ⟨h.1, UtxoId.sortKey_inj_utxo h.2.1, h.2.2⟩

instance : LinearOrder App := LinearOrder.lift' App.sortKey App.sortKey_inj_app

section SortedContainers

variable {α : Type*} {β : Type*} [LinearOrder α]

/-- `BTreeSet::insert` on the sorted-list model: insert `a` keeping the list
sorted; if `a` is already present the set is unchanged. -/
def setInsert (a : α) : List α → List α
  | [] => [a]
  | b :: rest =>
    if a < b then a :: b :: rest
    else if a = b then b :: rest
    else b :: setInsert a rest

/-- Collect a list into a `BTreeSet` (sorted, deduplicated list). -/
def setOfList (l : List α) : List α := l.foldl (fun s a => setInsert a s) []

/-- `BTreeMap::insert` on the sorted-assoc-list model: insert `(k, v)` keeping
keys sorted; an existing binding of `k` is overwritten. -/
def mapInsert (k : α) (v : β) : List (α × β) → List (α × β)
  | [] => [(k, v)]
  | (k', v') :: rest =>
    if k < k' then (k, v) :: (k', v') :: rest
    else if k = k' then (k, v) :: rest
    else (k', v') :: mapInsert k v rest

/-- Collect a list of pairs into a `BTreeMap` (last binding of a key wins,
matching `Iterator::collect::<BTreeMap<_, _>>()`). -/
def mapOfList (l : List (α × β)) : List (α × β) :=
  l.foldl (fun m kv => mapInsert kv.1 kv.2 m) []

end SortedContainers

/-- `BTreeMap::get` on the assoc-list model: first binding of the key.
(For key-nodup lists — every actual B-tree — this is *the* binding.) -/
def mapLookup {α : Type*} {β : Type*} [DecidableEq α] (m : List (α × β)) (k : α) : Option β :=
  match m with
  | [] => none
  | (k', v') :: rest => if k = k' then some v' else mapLookup rest k

/-- Keys of an assoc list. -/
abbrev mapKeys {α : Type*} {β : Type*} (m : List (α × β)) : List α := m.map (·.1)

/-- Rust `Iterator::collect::<Option<Vec<_>>>()`: map a fallible function
over a list, failing on the first `none`. -/
def optionMapM {α : Type*} {β : Type*} (f : α → Option β) : List α → Option (List β)
  | [] => some []
  | x :: l =>
    match f x with
    | none => none
    | some b =>
      match optionMapM f l with
      | none => none
      | some bs => some (b :: bs)

/-- Rust `Iterator::collect::<Result<Vec<_>, E>>()`: map a fallible function
over a list, short-circuiting on the first error. -/
def exceptMapM {ε : Type*} {α : Type*} {β : Type*} (f : α → Except ε β) :
    List α → Except ε (List β)
  | [] => .ok []
  | x :: l =>
    match f x with
    | .error e => .error e
    | .ok b =>
      match exceptMapM f l with
      | .error e => .error e
      | .ok bs => .ok (b :: bs)

/-! ## SHA-256

`charms-client`'s `utxo_id_hash` uses `sha2::Sha256`.  We implement SHA-256
(FIPS 180-4) over byte lists so the hash in the model is the real one. -/

namespace SHA256

/-- `2^32`, the word modulus. -/
def M32 : Nat := 4294967296

/-- Rotate a 32-bit word right by `n`. -/
def rotr (n x : Nat) : Nat := ((x >>> n) ||| (x <<< (32 - n))) % M32

/-- Logical shift right. -/
def shr (n x : Nat) : Nat := x >>> n

def bsig0 (x : Nat) : Nat := rotr 2 x ^^^ rotr 13 x ^^^ rotr 22 x

def bsig1 (x : Nat) : Nat := rotr 6 x ^^^ rotr 11 x ^^^ rotr 25 x

def ssig0 (x : Nat) : Nat := rotr 7 x ^^^ rotr 18 x ^^^ shr 3 x

def ssig1 (x : Nat) : Nat := rotr 17 x ^^^ rotr 19 x ^^^ shr 10 x

def ch (x y z : Nat) : Nat := (x &&& y) ^^^ ((x ^^^ 4294967295) &&& z)

def maj (x y z : Nat) : Nat := (x &&& y) ^^^ (x &&& z) ^^^ (y &&& z)

/-- The 64 round constants. -/
def K : List Nat := [
  1116352408, 1899447441, 3049323471, 3921009573, 961987163, 1508970993, 2453635748, 2870763221,
  3624381080, 310598401, 607225278, 1426881987, 1925078388, 2162078206, 2614888103, 3248222580,
  3835390401, 4022224774, 264347078, 604807628, 770255983, 1249150122, 1555081692, 1996064986,
  2554220882, 2821834349, 2952996808, 3210313671, 3336571891, 3584528711, 113926993, 338241895,
  666307205, 773529912, 1294757372, 1396182291, 1695183700, 1986661051, 2177026350, 2456956037,
  2730485921, 2820302411, 3259730800, 3345764771, 3516065817, 3600352804, 4094571909, 275423344,
  430227734, 506948616, 659060556, 883997877, 958139571, 1322822218, 1537002063, 1747873779,
  1955562222, 2024104815, 2227730452, 2361852424, 2428436474, 2756734187, 3204031479, 3329325298]

/-- The initial hash value. -/
def H0 : List Nat :=
  [1779033703, 3144134277, 1013904242, 2773480762, 1359893119, 2600822924, 528734635, 1541459225]

/-- `n` bytes of `x`, big-endian. -/
def beBytes (n x : Nat) : List Nat :=
  (List.range n).map (fun i => x >>> (8 * (n - 1 - i)) % 256)

/-- FIPS 180-4 padding: `0x80`, zeros to 56 mod 64, then the bit length as
8 big-endian bytes. -/
def pad (msg : List Nat) : List Nat :=
  let l := msg.length
  msg ++ 128 :: List.replicate ((119 - l % 64) % 64) 0 ++ beBytes 8 (8 * l)

/-- Group bytes into 32-bit big-endian words. -/
def words : List Nat → List Nat
  | b0 :: b1 :: b2 :: b3 :: rest =>
    (b0 * 16777216 + b1 * 65536 + b2 * 256 + b3) :: words rest
  | _ => []

/-- Split into 64-byte blocks (structural recursion on a fuel bounded by the
list length, so the definition reduces by iota). -/
def chunks64Fuel : Nat → List Nat → List (List Nat)
  | 0, _ => []
  | _ + 1, [] => []
  | fuel + 1, l => l.take 64 :: chunks64Fuel fuel (l.drop 64)

/-- Split into 64-byte blocks. -/
def chunks64 (l : List Nat) : List (List Nat) :=
  chunks64Fuel l.length l

/-- Extend the 16 message words to the 64-word schedule. -/
def schedule (w16 : List Nat) : List Nat :=
  (List.range' 16 48).foldl (fun w i =>
    w ++ [(ssig1 (w.getD (i - 2) 0) + w.getD (i - 7) 0 +
           ssig0 (w.getD (i - 15) 0) + w.getD (i - 16) 0) % M32]) w16

/-- One compression round. -/
def round (st : List Nat) (kw : Nat × Nat) : List Nat :=
  match st with
  | [a, b, c, d, e, f, g, hh] =>
    let t1 := (hh + bsig1 e + ch e f g + kw.1 + kw.2) % M32
    let t2 := (bsig0 a + maj a b c) % M32
    [(t1 + t2) % M32, a, b, c, (d + t1) % M32, e, f, g]
  | st => st

/-- Compress one 64-byte block into the running hash. -/
def compressBlock (h : List Nat) (block : List Nat) : List Nat :=
  let st := (K.zip (schedule (words block))).foldl round h
  (h.zip st).map (fun p => (p.1 + p.2) % M32)

/-- SHA-256 of a byte list, as 32 bytes. -/
def sha256 (msg : List Nat) : List Nat :=
  (((chunks64 (pad msg)).foldl compressBlock H0).map (beBytes 4)).flatten

end SHA256

/-- Little-endian byte encoding (`u32::to_le_bytes` for `n = 4`). -/
def leBytes (n x : Nat) : List Nat :=
  (List.range n).map (fun i => x >>> (8 * i) % 256)

/-- Rust `UtxoId::to_bytes`: the canonical fixed-width 36-byte encoding —
the 32 `txid` bytes followed by the output index as 4 little-endian bytes
(`charms-data/src/lib.rs`). -/
def UtxoId.to_bytes (u : UtxoId) : List Nat :=
  u.txid ++ leBytes 4 u.vout

/-- Rust `charms_client::utxo_id_hash`: SHA-256 of the canonical 36-byte
encoding of the `UtxoId`. -/
def utxo_id_hash (u : UtxoId) : B32 :=
  SHA256.sha256 u.to_bytes

/-! ## `charms-client`: normalized spells and the well-formedness checker -/

/-- Rust `charms_client::NormalizedCharms`: `BTreeMap<u32, Data>`, mapping the
index of a charm's app in `app_public_inputs` to the charm's data. -/
abbrev NormalizedCharms := List (Nat × Data)

/-- Rust `charms_data::Charms` (current crate): `BTreeMap<App, Data>`. -/
abbrev Charms := List (App × Data)

/-- Rust `charms_client::NormalizedTransaction`. -/
structure NormalizedTransaction where
  /-- Optional input UTXO list (`None` when committed inside a transaction). -/
  ins : Option (List UtxoId)
  /-- Reference UTXO set (`BTreeSet<UtxoId>`). -/
  refs : List UtxoId
  /-- Output charms, in hosting-transaction output order. -/
  outs : List NormalizedCharms
  /-- Optional map from beamed output index to destination hash
  (`BTreeMap<u32, B32>`). -/
  beamed_outs : Option (List (Nat × B32))
deriving DecidableEq, Repr

/-- Rust `charms_client::NormalizedSpell`. -/
structure NormalizedSpell where
  version : Nat
  tx : NormalizedTransaction
  /-- `BTreeMap<App, Data>` of every app's public input. -/
  app_public_inputs : List (App × Data)
deriving DecidableEq, Repr

/-- Rust `charms_client::CURRENT_VERSION = V5`. -/
def CURRENT_VERSION : Nat := 5

/-- The resolver map `BTreeMap<TxId, (Option<NormalizedSpell>, usize)>`
produced by `prev_spells`, modelled by its lookup function (`well_formed` and
`to_tx` access it only through `get` / indexing). -/
abbrev Resolver := TxId → Option (Option NormalizedSpell × Nat)

/-- The `directly_created_by_prev_txns` closure of
`charms_client::well_formed`: the UTXO's transaction must be a key of the
resolver map, its output index must be `<=` the recorded output count, and the
index must not be a key of the prior spell's `beamed_outs`. -/
def directly_created_by_prev_txns (prev_spells : Resolver) (u : UtxoId) : Bool :=
  match prev_spells u.txid with
  | none => false
  | some (n_spell_opt, num_tx_outs) =>
    let is_beamed_out : Bool :=
      match n_spell_opt with
      | some n_spell =>
        match n_spell.tx.beamed_outs with
        | some beamed => (mapLookup beamed u.vout).isSome
        | none => false
      | none => false
    decide (u.vout ≤ num_tx_outs) && !is_beamed_out

/-- The body of the `beamed_source_utxos_point_to_placeholder_dest_utxos`
closure of `charms_client::well_formed`, for one
`(tx_in_utxo_id, beaming_source_utxo_id)` pair: the destination's prior tx
must be resolved and carry no spell, and the beam source's spell must declare
a `beamed_outs` entry at the source output index equal to the destination
UTXO's content hash. -/
def beamed_source_ok (prev_spells : Resolver) (p : UtxoId × UtxoId) : Bool :=
  match prev_spells p.1.txid with
  | none => false
  | some (prev_spell_opt, _) =>
    if prev_spell_opt.isSome then false
    else
      match prev_spells p.2.txid with
      | none => false
      | some (n_spell_opt, _) =>
        match n_spell_opt with
        | none => false
        | some n_spell =>
          match n_spell.tx.beamed_outs with
          | none => false
          | some beamed_outs =>
            match mapLookup beamed_outs p.2.vout with
            | none => false
            | some dest_utxo_hash => decide (dest_utxo_hash = utxo_id_hash p.1)

/-- Rust `charms_client::well_formed` (`charms-client/src/lib.rs`): `check!`s
in source order — protocol version, output charm indices in range, `tx.ins`
present, every input and reference directly created by a prior transaction,
and every beam hint consistent. -/
def well_formed (spell : NormalizedSpell) (prev_spells : Resolver)
    (tx_ins_beamed_source_utxos : List (UtxoId × UtxoId)) : Bool :=
  if spell.version ≠ CURRENT_VERSION then false
  else if ¬ (spell.tx.outs.all fun n_charm =>
      n_charm.all fun p => decide (p.1 < spell.app_public_inputs.length)) then false
  else
    match spell.tx.ins with
    | none => false
    | some tx_ins =>
      if ¬ (tx_ins.all (directly_created_by_prev_txns prev_spells) &&
          spell.tx.refs.all (directly_created_by_prev_txns prev_spells)) then false
      else
        tx_ins_beamed_source_utxos.all (beamed_source_ok prev_spells)

/-- Rust `charms_client::apps`: the list of apps in the spell, in
`app_public_inputs` key order. -/
def apps (spell : NormalizedSpell) : List App :=
  spell.app_public_inputs.map (·.1)

/-- Rust `charms_client::charms`: map each `(index, data)` entry to
`(apps[index], data)` and collect into a `BTreeMap`.  `apps[i as usize]`
panics when out of bounds, so the model returns `none` there. -/
def charms (spell : NormalizedSpell) (n_charms : NormalizedCharms) : Option Charms :=
  let app_list := apps spell
  (optionMapM (fun p => (app_list[p.1]?).map (fun a => (a, p.2))) n_charms).map mapOfList

/-- Rust `charms_client::charms_in_utxo`: the charms in `prev_spell`'s output
at the UTXO's index, if any.  The outer `Option` is the panic (from `charms`);
the inner one is the source's `Option<Charms>`. -/
def charms_in_utxo (prev_spell : NormalizedSpell) (u : UtxoId) :
    Option (Option Charms) :=
  match prev_spell.tx.outs[u.vout]? with
  | none => some none
  | some n_charms => (charms prev_spell n_charms).map some

/-- The `or_else` closure inside `to_tx`'s `from_utxo_id`: look the UTXO up
in the beam-source hints and fetch the charms from the beam source's spell.
The outer `Option` is the panic of `prev_spells[&beam_source_utxo_id.0]`;
the inner one is the source's `Option<Charms>`. -/
def beamed_fallback (prev_spells : Resolver) (hints : List (UtxoId × UtxoId))
    (u : UtxoId) : Option (Option Charms) :=
  match mapLookup hints u with
  | none => some none
  | some beam_source_utxo_id =>
    match prev_spells beam_source_utxo_id.txid with
    | none => none
    | some (pOpt, _) =>
      match pOpt with
      | none => some none
      | some psp => charms_in_utxo psp beam_source_utxo_id

/-- The `from_utxo_id` closure of `charms_client::to_tx`: resolve a UTXO to
its charms via the prior spell, falling back to the beam-source hint
(`or_else`), and to the empty charms when neither yields any
(`unwrap_or_default`).  `none` models the panics of the `prev_spells[..]`
index expressions. -/
def from_utxo_id (prev_spells : Resolver) (hints : List (UtxoId × UtxoId))
    (u : UtxoId) : Option (UtxoId × Charms) :=
  match prev_spells u.txid with
  | none => none
  | some (prev_spell_opt, _) =>
    let first : Option (Option Charms) :=
      match prev_spell_opt with
      | none => some none
      | some psp => charms_in_utxo psp u
    match first with
    | none => none
    | some (some cs) => some (u, cs)
    | some none =>
      match beamed_fallback prev_spells hints u with
      | none => none
      | some none => some (u, [])
      | some (some cs) => some (u, cs)

/-- Rust `charms_data::Transaction` (current crate): resolved inputs,
references and outputs. -/
structure Transaction where
  ins : List (UtxoId × Charms)
  refs : List (UtxoId × Charms)
  outs : List Charms
deriving DecidableEq, Repr

/-- Rust `charms_client::to_tx`: project a normalized spell to a resolved
`Transaction`.  `none` models the panic branches (`unreachable!` on absent
`tx.ins`, map indexing, `apps[i]`). -/
def to_tx (spell : NormalizedSpell) (prev_spells : Resolver)
    (tx_ins_beamed_source_utxos : List (UtxoId × UtxoId)) : Option Transaction :=
  match spell.tx.ins with
  | none => none
  | some tx_ins =>
    match optionMapM (from_utxo_id prev_spells tx_ins_beamed_source_utxos) tx_ins with
    | none => none
    | some ins =>
      match optionMapM (from_utxo_id prev_spells tx_ins_beamed_source_utxos) spell.tx.refs with
      | none => none
      | some refs =>
        match optionMapM (charms spell) spell.tx.outs with
        | none => none
        | some outs => some ⟨ins, refs, outs⟩

/-! ## `src/spell.rs`: source spells and normalization -/

/-- Rust `spell::KeyedCharms`: `BTreeMap<String, Data>`. -/
abbrev KeyedCharms := List (String × Data)

/-- Rust `spell::Input`. -/
structure Input where
  utxo_id : Option UtxoId
  charms : Option KeyedCharms
  beamed_from : Option UtxoId
deriving DecidableEq

/-- Rust `spell::Output`. -/
structure Output where
  address : Option String
  amount : Option Nat
  charms : Option KeyedCharms
  beam_to : Option B32
deriving DecidableEq

/-- Rust `spell::Spell`: the human-authored source form. -/
structure Spell where
  version : Nat
  apps : List (String × App)
  public_args : Option (List (String × Data))
  private_args : Option (List (String × Data))
  ins : List Input
  refs : Option (List Input)
  outs : List Output
deriving DecidableEq

/-- The failure modes of `Spell::normalized` (`anyhow!` messages in the
source): `"duplicate apps"`, `"missing input utxo_id"`, `"duplicate inputs"`,
`"duplicate reference inputs"`, `"missing app key"`; plus the two `expect`
panic sites. -/
inductive NormError where
  | duplicateApps
  | missingUtxoId
  | duplicateInputs
  | duplicateRefs
  | missingAppKey
  | appIndexPanic
  | insUtxoPanic
deriving DecidableEq

/-- Rust `spell::app_inputs`: pair every app with the keyed input data under
the same string key (defaulting to empty `Data`), collected into a
`BTreeMap<App, Data>`. -/
def app_inputs (keyed_apps : List (String × App))
    (keyed_inputs : List (String × Data)) : List (App × Data) :=
  mapOfList (keyed_apps.map fun ka => (ka.2, (mapLookup keyed_inputs ka.1).getD Data.empty))

/-- `utxo.utxo_id.clone().ok_or(anyhow!("missing input utxo_id"))`. -/
def getUtxoId (i : Input) : Except NormError UtxoId :=
  match i.utxo_id with
  | some u => .ok u
  | none => .error .missingUtxoId

/-- The translation of one keyed charm entry inside `Spell::normalized`: map
the string key to its app, then to the app's index.  (`Data::from(v)` on data
that already is `Data` is the identity.) -/
def normalizeCharmEntry (keyed_apps : List (String × App)) (app_to_index : List (App × Nat))
    (kv : String × Data) : Except NormError (Nat × Data) :=
  match mapLookup keyed_apps kv.1 with
  | none => Except.error NormError.missingAppKey
  | some app =>
    match mapLookup app_to_index app with
    | none => Except.error NormError.appIndexPanic
    | some i => Except.ok (i, kv.2)

/-- The per-output charm translation inside `Spell::normalized`, collecting
the translated entries into a `BTreeMap<u32, Data>`. -/
def normalizeCharm (keyed_apps : List (String × App)) (app_to_index : List (App × Nat))
    (kc : KeyedCharms) : Except NormError NormalizedCharms :=
  match exceptMapM (normalizeCharmEntry keyed_apps app_to_index) kc with
  | .error e => .error e
  | .ok entries => .ok (mapOfList entries)

/-- The hint-pair extraction inside `Spell::normalized`
(`input.utxo_id.expect(..)` then `beamed_from.map`). -/
def hintPair (i : Input) : Except NormError (Option (UtxoId × UtxoId)) :=
  match i.utxo_id with
  | none => Except.error NormError.insUtxoPanic
  | some u => Except.ok (i.beamed_from.map fun b => (u, b))

/-- Rust `Spell::normalized` (`src/spell.rs`): produce the canonical
`NormalizedSpell`, the apps' private inputs, and the beam-source hint map. -/
def Spell.normalized (s : Spell) :
    Except NormError (NormalizedSpell × List (App × Data) × List (UtxoId × UtxoId)) :=
  let keyed_public_inputs := s.public_args.getD []
  let keyed_apps := s.apps
  let appsSet := setOfList (keyed_apps.map (·.2))
  let app_to_index : List (App × Nat) := appsSet.zip (List.range appsSet.length)
  if appsSet.length ≠ keyed_apps.length then .error NormError.duplicateApps
  else
    let app_public_inputs := app_inputs keyed_apps keyed_public_inputs
    match exceptMapM getUtxoId s.ins with
    | .error e => .error e
    | .ok ins =>
      if (setOfList ins).length ≠ ins.length then .error NormError.duplicateInputs
      else
        let self_refs := s.refs.getD []
        match exceptMapM getUtxoId self_refs with
        | .error e => .error e
        | .ok refsList =>
          let refs := setOfList refsList
          if refs.length ≠ self_refs.length then .error NormError.duplicateRefs
          else
            match exceptMapM
                (fun o => normalizeCharm keyed_apps app_to_index (o.charms.getD [])) s.outs with
            | .error e => .error e
            | .ok outs =>
              let beamedList :=
                mapOfList (s.outs.enum.filterMap fun p => p.2.beam_to.map fun b => (p.1, b))
              let beamed_outs := if beamedList.isEmpty then none else some beamedList
              let norm_spell : NormalizedSpell :=
                { version := s.version
                  tx := { ins := some ins, refs := refs, outs := outs,
                          beamed_outs := beamed_outs }
                  app_public_inputs := app_public_inputs }
              let keyed_private_inputs := s.private_args.getD []
              let app_private_inputs := app_inputs keyed_apps keyed_private_inputs
              match exceptMapM hintPair s.ins with
              | .error e => .error e
              | .ok hintPairs =>
                .ok (norm_spell, app_private_inputs, mapOfList (hintPairs.filterMap id))

/-- Rename the string keys of a keyed charm map by `σ` (re-collecting into a
`BTreeMap`, since the B-tree orders entries by the new keys). -/
def renameCharms (σ : String → String) (kc : KeyedCharms) : KeyedCharms :=
  mapOfList (kc.map fun kv => (σ kv.1, kv.2))

/-- A source spell with all app keys consistently renamed by `σ`: the same
spell as authored under different (unique) app key names.  Applies to the
`apps` map, the public/private input maps, and every charm map. -/
def renameSpell (σ : String → String) (s : Spell) : Spell :=
  { version := s.version
    apps := mapOfList (s.apps.map fun ka => (σ ka.1, ka.2))
    public_args := s.public_args.map (fun m => mapOfList (m.map fun kv => (σ kv.1, kv.2)))
    private_args := s.private_args.map (fun m => mapOfList (m.map fun kv => (σ kv.1, kv.2)))
    ins := s.ins.map (fun i => { i with charms := i.charms.map (renameCharms σ) })
    refs := s.refs.map (List.map (fun i => { i with charms := i.charms.map (renameCharms σ) }))
    outs := s.outs.map (fun o => { o with charms := o.charms.map (renameCharms σ) }) }

/-! ## Extraction protocol (`charms-client/src/bitcoin_tx.rs`, `cardano_tx.rs`)

CBOR (de)serialization (`util::read`) and Groth16 proof verification are
external collaborators (spec §1, §6), so the extraction functions take them as
parameters `read` / `verify`; the structural checks around them are embedded
from the source. -/

/-- Serialized proof bytes (`Proof = Box<[u8]>`). -/
abbrev Proof := List Nat

/-- A decoded Bitcoin script instruction (`bitcoin::script::Instruction`):
a data push or an opcode. -/
inductive Instr where
  | pushBytes (bs : List Nat)
  | op (code : Nat)
deriving DecidableEq

/-- Bitcoin opcode `OP_IF`. -/
def OP_IF : Nat := 99

/-- Bitcoin opcode `OP_ENDIF`. -/
def OP_ENDIF : Nat := 104

/-- The ASCII bytes of the `b"spell"` marker. -/
def spellMarker : List Nat := [115, 112, 101, 108, 108]

/-- Model of `bitcoin::TxIn`: the previous output it spends, plus the two
taproot views of its witness used by the extraction code
(`witness.taproot_control_block()` / `witness.tapscript()`; computing these
two views from the raw witness stack is the `bitcoin` crate's job, outside
the extraction contract). -/
structure TxIn where
  previous_output : UtxoId
  taproot_control_block : Option (List Nat)
  tapscript : Option (List Instr)
deriving DecidableEq

/-- Model of `bitcoin::TxOut`. -/
structure TxOut where
  value : Nat
  script_pubkey : List Nat
deriving DecidableEq

/-- Model of `bitcoin::Transaction` as used by `BitcoinTx`. -/
structure BitcoinTx where
  input : List TxIn
  output : List TxOut
deriving DecidableEq

/-- The pushdata-collection loop of `parse_spell_and_proof`: concatenate
pushdata until `OP_ENDIF`; anything else is `bail!("unexpected opcode")`. -/
def collectSpellData : List Instr → Option (List Nat)
  | [] => none
  | .pushBytes bs :: rest => (collectSpellData rest).map (bs ++ ·)
  | .op c :: _ => if c = OP_ENDIF then some [] else none

/-- Rust `bitcoin_tx::parse_spell_and_proof`: require a single-leaf taproot
control block (33 bytes), then parse the tapscript
`OP_FALSE OP_IF "spell" <pushdata>.. OP_ENDIF ..` and deserialize the
concatenated pushdata via `read`. -/
def parse_spell_and_proof (read : List Nat → Option (NormalizedSpell × Proof))
    (spell_tx_in : TxIn) : Option (NormalizedSpell × Proof) :=
  match spell_tx_in.taproot_control_block with
  | none => none
  | some cb =>
    if cb.length ≠ 33 then none
    else match spell_tx_in.tapscript with
      | none => none
      | some script =>
        match script with
        | .pushBytes mk0 :: .op c1 :: .pushBytes marker :: rest =>
          if mk0 ≠ [] then none
          else if c1 ≠ OP_IF then none
          else if marker ≠ spellMarker then none
          else match collectSpellData rest with
            | none => none
            | some spell_data => read spell_data
        | _ => none

/-- Rust `bitcoin_tx::spell_with_ins`: set `tx.ins` from the hosting
transaction's inputs (the spell-commitment input already excluded). -/
def spell_with_ins (spell : NormalizedSpell) (spell_tx_ins : List TxIn) : NormalizedSpell :=
  { spell with tx := { spell.tx with ins := some (spell_tx_ins.map (·.previous_output)) } }

/-- Modelled from the spec: `crate::tx::vks` (this iteration of
`charms-client/src/tx.rs` carries its two halves `spell_vk` and `groth16_vk`)
selects verification-key material by spell version; versions
`0..=CURRENT_VERSION` are supported, anything else fails closed (§4.2, §7). -/
def vks (version : Nat) : Option Unit :=
  if version ≤ CURRENT_VERSION then some () else none

/-- Rust `BitcoinTx::extract_and_verify_spell`: split off the last input,
parse (spell, proof) from its witness, require `tx.ins` unset and
`tx.outs.len() <= tx.output.len()`, inherit the inputs, then verify the proof
for the spell's version. -/
def BitcoinTx.extract_and_verify_spell
    (read : List Nat → Option (NormalizedSpell × Proof))
    (verify : NormalizedSpell → Proof → Bool)
    (tx : BitcoinTx) : Option NormalizedSpell :=
  match tx.input.getLast? with
  | none => none
  | some spell_tx_in =>
    match parse_spell_and_proof read spell_tx_in with
    | none => none
    | some (spell, proof) =>
      if spell.tx.ins.isSome then none
      else if ¬ (spell.tx.outs.length ≤ tx.output.length) then none
      else
        let spell := spell_with_ins spell tx.input.dropLast
        match vks spell.version with
        | none => none
        | some _ => if verify spell proof then some spell else none

/-- Model of `cml_chain::plutus::PlutusData` as matched by the extraction:
a byte-string datum or anything else. -/
inductive PlutusDatum where
  | bytes (bs : List Nat)
  | other
deriving DecidableEq

/-- Model of `cml_chain::transaction::DatumOption`. -/
inductive DatumOption where
  | datum (d : PlutusDatum)
  | hash (h : List Nat)
deriving DecidableEq

/-- Model of `cml_chain::transaction::TransactionOutput`: only the Conway
format can carry the inline datum the extraction looks for. -/
inductive CardanoOutput where
  | conway (datum_option : Option DatumOption)
  | alonzo
deriving DecidableEq

/-- Model of `cml_chain::transaction::TransactionInput`. -/
structure CardanoInput where
  transaction_id : List Nat
  index : Nat
deriving DecidableEq

/-- Model of a Cardano transaction as used by `CardanoTx` (inputs and
outputs of the body). -/
structure CardanoTx where
  inputs : List CardanoInput
  outputs : List CardanoOutput
deriving DecidableEq

/-- Rust `cardano_tx::tx_id`: Charms use Bitcoin's reversed byte order. -/
def cardano_tx_id (transaction_hash : List Nat) : TxId :=
  transaction_hash.reverse

/-- Rust `cardano_tx::spell_with_ins`: all inputs but the last become
`tx.ins`. -/
def cardano_spell_with_ins (spell : NormalizedSpell) (tx_ins : List CardanoInput) :
    NormalizedSpell :=
  let n := tx_ins.length - 1
  { spell with tx := { spell.tx with
      ins := some ((tx_ins.take n).map fun i => ⟨cardano_tx_id i.transaction_id, i.index⟩) } }

/-- Rust `CardanoTx::extract_and_verify_spell`: the last output's inline
byte-string Plutus datum is the (spell, proof) pair; require `tx.ins` unset
and `tx.outs.len() < outputs.len()` (the spell-carrying output itself does
not count), inherit inputs, verify. -/
def CardanoTx.extract_and_verify_spell
    (read : List Nat → Option (NormalizedSpell × Proof))
    (verify : NormalizedSpell → Proof → Bool)
    (tx : CardanoTx) : Option NormalizedSpell :=
  if tx.inputs.length = 0 then none
  else if tx.outputs.length = 0 then none
  else
    match tx.outputs.getLast? with
    | none => none
    | some (CardanoOutput.conway (some (DatumOption.datum (PlutusDatum.bytes spell_data)))) =>
      match read spell_data with
      | none => none
      | some (spell, proof) =>
        if spell.tx.ins.isSome then none
        else if ¬ (spell.tx.outs.length < tx.outputs.length) then none
        else
          let spell := cardano_spell_with_ins spell tx.inputs
          match vks spell.version with
          | none => none
          | some _ => if verify spell proof then some spell else none
    | some _ => none

/-! ## `charms-data`: UtxoId encodings (`charms-data/src/lib.rs`) -/

/-- `u32::from_le_bytes`. -/
def leNat (bs : List Nat) : Nat :=
  bs.foldr (fun b acc => b + 256 * acc) 0

/-- Rust `UtxoId::from_bytes`: first 32 bytes are the `TxId`, the remaining
4 bytes the little-endian index. -/
def UtxoId.from_bytes (bs : List Nat) : UtxoId :=
  ⟨bs.take 32, leNat (bs.drop 32)⟩

/-- Lower-case hex digit (`hex::encode`). -/
def hexDigitChar (n : Nat) : Char :=
  Char.ofNat (if n < 10 then 48 + n else 87 + n)

/-- Rust `hex::encode`: two lower-case hex digits per byte, high nibble
first. -/
def hexEncode : List Nat → List Char
  | [] => []
  | b :: rest => hexDigitChar (b / 16) :: hexDigitChar (b % 16) :: hexEncode rest

/-- Value of a hex digit (`hex::decode` accepts both cases). -/
def hexDigitVal (c : Char) : Option Nat :=
  if 48 ≤ c.toNat ∧ c.toNat ≤ 57 then some (c.toNat - 48)
  else if 97 ≤ c.toNat ∧ c.toNat ≤ 102 then some (c.toNat - 87)
  else if 65 ≤ c.toNat ∧ c.toNat ≤ 70 then some (c.toNat - 55)
  else none

/-- Rust `hex::decode`: pairs of hex digits; odd length or an invalid digit
is an error. -/
def hexDecode : List Char → Option (List Nat)
  | [] => some []
  | c1 :: c2 :: rest => do
    let h ← hexDigitVal c1
    let l ← hexDigitVal c2
    let tail ← hexDecode rest
    pure ((h * 16 + l) :: tail)
  | _ => none

/-- Decimal digit character. -/
def decDigitChar (d : Nat) : Char := Char.ofNat (48 + d)

/-- Decimal digits, structurally recursive on a fuel bounded by the number
itself (so the definition reduces by iota). -/
def natDigitsFuel : Nat → Nat → List Nat
  | 0, n => [n]
  | fuel + 1, n => if n < 10 then [n] else natDigitsFuel fuel (n / 10) ++ [n % 10]

/-- Decimal digits of a `Nat`, most significant first (no leading zeros;
`[0]` for zero) — the digits `u32`'s `Display` prints. -/
def natDigits (n : Nat) : List Nat :=
  natDigitsFuel n n

/-- The decimal rendering of a `Nat` (`format!("{}", index)`). -/
def decimalChars (n : Nat) : List Char :=
  (natDigits n).map decDigitChar

/-- Value of a decimal digit. -/
def decDigitVal (c : Char) : Option Nat :=
  if 48 ≤ c.toNat ∧ c.toNat ≤ 57 then some (c.toNat - 48) else none

/-- Rust `str::parse::<u32>`: an optional `+` sign, at least one digit, and
the value must fit in 32 bits. -/
def parseU32 (s : List Char) : Option Nat :=
  match optionMapM decDigitVal (if s.head? = some '+' then s.tail else s) with
  | none => none
  | some [] => none
  | some vals =>
    if vals.foldl (fun acc d => acc * 10 + d) 0 < 4294967296 then
      some (vals.foldl (fun acc d => acc * 10 + d) 0)
    else none

/-- The human-readable encoding `format!("{}:{}", hex::encode(txid), index)`
(the `Serialize` impl of `UtxoId`), as a character list. -/
def UtxoId.toStringChars (u : UtxoId) : List Char :=
  hexEncode u.txid ++ ':' :: decimalChars u.vout

/-- Rust `str::split(':')` on a character list. -/
def splitOnChar (c : Char) : List Char → List (List Char)
  | [] => [[]]
  | x :: xs =>
    if x = c then [] :: splitOnChar c xs
    else match splitOnChar c xs with
      | [] => [[x]]
      | p :: ps => (x :: p) :: ps

/-- Rust `UtxoId::from_str`: split at `:` into exactly two parts, hex-decode
the txid (which must convert into `[u8; 32]`), parse the index as `u32`. -/
def UtxoId.from_str (s : List Char) : Option UtxoId :=
  match splitOnChar ':' s with
  | [p0, p1] =>
    match hexDecode p0 with
    | none => none
    | some txid_bytes =>
      if txid_bytes.length ≠ 32 then none
      else match parseU32 p1 with
        | none => none
        | some index => some ⟨txid_bytes, index⟩
  | _ => none

/-! ## Concrete instances (used to instantiate the theorems below) -/

/-- A 32-byte transaction id. -/
def exTxA : TxId := List.replicate 32 1

/-- A second 32-byte transaction id. -/
def exTxB : TxId := List.replicate 32 2

/-- A third 32-byte transaction id. -/
def exTxC : TxId := List.replicate 32 3

def exUA : UtxoId := ⟨exTxA, 0⟩

def exUB : UtxoId := ⟨exTxB, 0⟩

/-- A prior spell whose `beamed_outs` declares output `0` beamed to the hash
of `exUA`. -/
def exSpellB : NormalizedSpell :=
  { version := 5
    tx := { ins := none, refs := [], outs := [[]], beamed_outs := some [(0, utxo_id_hash exUA)] }
    app_public_inputs := [] }

/-- A resolver map: `exTxA` resolved with no spell, `exTxB` resolved with
`exSpellB`. -/
def exResolver : Resolver := fun t =>
  if t = exTxA then some (none, 1)
  else if t = exTxB then some (some exSpellB, 1)
  else none

/-- `exResolver` extended with an unrelated entry for `exTxC`. -/
def exResolverBig : Resolver := fun t =>
  if t = exTxC then some (none, 0) else exResolver t

/-- A normalized spell with no inputs, outputs or apps. -/
def exSpell : NormalizedSpell :=
  { version := 5
    tx := { ins := some [], refs := [], outs := [], beamed_outs := none }
    app_public_inputs := [] }

/-- A normalized spell spending `exUA` as its only input. -/
def exSpellIn : NormalizedSpell :=
  { version := 5
    tx := { ins := some [exUA], refs := [], outs := [], beamed_outs := none }
    app_public_inputs := [] }

/-- A normalized spell with an out-of-range charm index (`0` with zero
apps). -/
def exSpellBadIdx : NormalizedSpell :=
  { version := 5
    tx := { ins := some [], refs := [], outs := [[(0, [])]], beamed_outs := none }
    app_public_inputs := [] }

/-- A normalized spell (unbound inputs) with one output charm entry — used as
the parsed payload in the extraction theorems. -/
def exSpellUnbound : NormalizedSpell :=
  { version := 5
    tx := { ins := none, refs := [], outs := [[]], beamed_outs := none }
    app_public_inputs := [] }

/-- A Bitcoin input whose witness carries a well-formed single-leaf spell
commitment (33-byte control block). -/
def exTxInGood : TxIn :=
  { previous_output := exUA
    taproot_control_block := some (List.replicate 33 0)
    tapscript := some [Instr.pushBytes [], Instr.op OP_IF, Instr.pushBytes spellMarker,
                       Instr.op OP_ENDIF] }

/-- A Bitcoin input whose witness has a 65-byte control block (a two-leaf
taproot tree). -/
def exTxInMultiLeaf : TxIn :=
  { previous_output := exUA
    taproot_control_block := some (List.replicate 65 0)
    tapscript := some [Instr.pushBytes [], Instr.op OP_IF, Instr.pushBytes spellMarker,
                       Instr.op OP_ENDIF] }

/-- A Bitcoin transaction with one input and no outputs. -/
def exBtcTx : BitcoinTx := { input := [exTxInGood], output := [] }

/-- A Bitcoin transaction whose only (hence last) input has a multi-leaf
control block. -/
def exBtcTxMulti : BitcoinTx := { input := [exTxInMultiLeaf], output := [] }

/-- A Cardano transaction with one input and one output carrying an inline
byte-string datum. -/
def exCdnTx : CardanoTx :=
  { inputs := [⟨List.replicate 32 9, 0⟩]
    outputs := [CardanoOutput.conway (some (DatumOption.datum (PlutusDatum.bytes [])))] }

/-- A `read` oracle that deserializes anything to `exSpellUnbound` with an
empty proof. -/
def exRead : List Nat → Option (NormalizedSpell × Proof) := fun _ => some (exSpellUnbound, [])

/-- An app used in the normalization instances. -/
def exApp1 : App := ⟨'t', exUA, List.replicate 32 3⟩

/-- A second app used in the normalization instances. -/
def exApp2 : App := ⟨'n', exUB, List.replicate 32 4⟩

/-- A source spell with two apps, one input and one charm-bearing output. -/
def exSrcSpell : Spell :=
  { version := 5
    apps := [("$A", exApp1), ("$B", exApp2)]
    public_args := some [("$B", [7])]
    private_args := none
    ins := [⟨some exUA, none, none⟩]
    refs := none
    outs := [⟨none, none, some [("$A", [1]), ("$B", [2])], none⟩] }

/-! ## Characterizations of the well-formedness checker -/

theorem directly_true_iff (M : Resolver) (u : UtxoId) :
    directly_created_by_prev_txns M u = true ↔
    ∃ e, M u.txid = some e ∧ u.vout ≤ e.2 ∧
      ∀ sp, e.1 = some sp → ∀ bo, sp.tx.beamed_outs = some bo →
        mapLookup bo u.vout = none := by
  unfold directly_created_by_prev_txns
  cases hM : M u.txid with
  | none => simp
  | some e =>
    obtain ⟨spOpt, n⟩ := e
    cases spOpt with
    | none => simp
    | some sp =>
      cases hbo : sp.tx.beamed_outs with
      | none => simp [hbo]
      | some bo =>
        cases hL : mapLookup bo u.vout with
        | none => simp [hbo, hL]
        | some b =>
          simp only [hbo, hL, Option.isSome_some, Bool.not_true, Bool.and_false,
            Bool.false_eq_true, false_iff]
          rintro ⟨e, he, hle, hforall⟩
          injection he with he'
          subst he'
          have := hforall sp rfl bo hbo
          simp [hL] at this

theorem beam_ok_iff (M : Resolver) (p : UtxoId × UtxoId) :
    beamed_source_ok M p = true ↔
    (∃ n, M p.1.txid = some (none, n)) ∧
    ∃ sp n bo, M p.2.txid = some (some sp, n) ∧ sp.tx.beamed_outs = some bo ∧
      mapLookup bo p.2.vout = some (utxo_id_hash p.1) := by
  unfold beamed_source_ok
  cases hM : M p.1.txid with
  | none => simp [hM]
  | some e =>
    obtain ⟨spOpt, n⟩ := e
    cases spOpt with
    | some sp => simp [hM]
    | none =>
      simp only [Option.isSome_none, Bool.false_eq_true, if_false]
      cases hM2 : M p.2.txid with
      | none => simp [hM, hM2]
      | some e2 =>
        obtain ⟨spOpt2, n2⟩ := e2
        cases spOpt2 with
        | none => simp [hM, hM2]
        | some sp2 =>
          cases hbo : sp2.tx.beamed_outs with
          | none => simp [hM, hM2, hbo]
          | some bo =>
            cases hL : mapLookup bo p.2.vout with
            | none => simp [hM, hM2, hbo, hL]
            | some b => simp [hM, hM2, hbo, hL, eq_comm]

theorem well_formed_true_iff (spell : NormalizedSpell) (M : Resolver)
    (hints : List (UtxoId × UtxoId)) :
    well_formed spell M hints = true ↔
      spell.version = CURRENT_VERSION ∧
      (spell.tx.outs.all fun n_charm =>
        n_charm.all fun q => decide (q.1 < spell.app_public_inputs.length)) = true ∧
      ∃ tx_ins, spell.tx.ins = some tx_ins ∧
        tx_ins.all (directly_created_by_prev_txns M) = true ∧
        spell.tx.refs.all (directly_created_by_prev_txns M) = true ∧
        hints.all (beamed_source_ok M) = true := by
  unfold well_formed
  by_cases hv : spell.version = CURRENT_VERSION
  · simp only [hv, ne_eq, not_true_eq_false, if_false, true_and]
    by_cases ho : (spell.tx.outs.all fun n_charm =>
        n_charm.all fun q => decide (q.1 < spell.app_public_inputs.length)) = true
    · rw [if_neg (by simp [ho])]
      simp only [ho, true_and]
      cases hins : spell.tx.ins with
      | none => simp
      | some tx_ins =>
        simp only [Option.some.injEq]
        by_cases hall : (tx_ins.all (directly_created_by_prev_txns M) &&
            spell.tx.refs.all (directly_created_by_prev_txns M)) = true
        · rw [if_neg (by simp [hall])]
          rw [Bool.and_eq_true] at hall
          constructor
          · intro h
            exact ⟨tx_ins, rfl, hall.1, hall.2, h⟩
          · rintro ⟨l, hl, _h1, _h2, h⟩
            subst hl
            exact h
        · rw [if_pos (by simpa using hall)]
          constructor
          · intro h
            exact absurd h (by simp)
          · rintro ⟨l, hl, h1, h2, _⟩
            subst hl
            exact absurd (by rw [Bool.and_eq_true]; exact ⟨h1, h2⟩) hall
    · rw [if_pos (by simpa using ho)]
      constructor
      · intro h
        exact absurd h (by simp)
      · rintro ⟨h, _⟩
        exact absurd h ho
  · simp [hv]

/-! ## C1: direct backing of inputs and references -/

/-- **C1**: for every `NormalizedSpell`, resolver map and beam-hint map, if
`well_formed` returns `true` then every input UtxoId and every reference
UtxoId is backed by a resolved prior transaction: its `TxId` is a key of the
resolver map, its output index is `<=` the recorded prior output count, and
the index is not a key of the prior spell's `tx.beamed_outs` — in particular
spending a beamed-out output as a plain input forces `well_formed = false`. -/
theorem well_formed_requires_direct_backing
    (spell : NormalizedSpell) (M : Resolver) (hints : List (UtxoId × UtxoId))
    (tx_ins : List UtxoId)
    (hwf : well_formed spell M hints = true)
    (hins : spell.tx.ins = some tx_ins)
    (u : UtxoId) (hu : u ∈ tx_ins ∨ u ∈ spell.tx.refs) :
    ∃ e, M u.txid = some e ∧ u.vout ≤ e.2 ∧
      ∀ sp, e.1 = some sp → ∀ bo, sp.tx.beamed_outs = some bo →
        mapLookup bo u.vout = none := by
  rw [well_formed_true_iff] at hwf
  obtain ⟨_, _, l, hl, hallIns, hallRefs, _⟩ := hwf
  rw [hins] at hl
  injection hl with hl'
  subst hl'
  have hd : directly_created_by_prev_txns M u = true := by
    cases hu with
    | inl h => exact List.all_eq_true.mp hallIns u h
    | inr h => exact List.all_eq_true.mp hallRefs u h
  exact (directly_true_iff M u).mp hd

theorem well_formed_requires_direct_backing_witness :
    well_formed exSpellIn exResolver [] = true ∧
    exSpellIn.tx.ins = some [exUA] ∧
    (exUA ∈ [exUA] ∨ exUA ∈ exSpellIn.tx.refs) ∧
    ∃ e, exResolver exUA.txid = some e ∧ exUA.vout ≤ e.2 ∧
      ∀ sp, e.1 = some sp → ∀ bo, sp.tx.beamed_outs = some bo →
        mapLookup bo exUA.vout = none :=
  ⟨by decide, by decide, Or.inl (by decide),
   well_formed_requires_direct_backing exSpellIn exResolver [] [exUA] (by decide) (by decide)
     exUA (Or.inl (by decide))⟩

/-! ## C6: out-of-range charm indices -/

/-- **C6**: if any output entry of a `NormalizedSpell` contains a charm index
that is not strictly less than `app_public_inputs.len()` (in particular an
index equal to it), `well_formed` returns `false`. -/
theorem well_formed_false_of_out_of_range_charm_index
    (spell : NormalizedSpell) (M : Resolver) (hints : List (UtxoId × UtxoId))
    (nch : NormalizedCharms) (q : Nat × Data)
    (h1 : nch ∈ spell.tx.outs) (h2 : q ∈ nch)
    (h3 : spell.app_public_inputs.length ≤ q.1) :
    well_formed spell M hints = false := by
  cases hwf : well_formed spell M hints with
  | false => rfl
  | true =>
    rw [well_formed_true_iff] at hwf
    obtain ⟨_, ho, _⟩ := hwf
    have h4 := List.all_eq_true.mp (List.all_eq_true.mp ho nch h1) q h2
    simp only [decide_eq_true_eq] at h4
    omega

theorem well_formed_false_of_out_of_range_charm_index_witness :
    [((0 : Nat), ([] : Data))] ∈ exSpellBadIdx.tx.outs ∧
    ((0 : Nat), ([] : Data)) ∈ [((0 : Nat), ([] : Data))] ∧
    exSpellBadIdx.app_public_inputs.length ≤ 0 ∧
    well_formed exSpellBadIdx (fun _ => none) [] = false :=
  ⟨by decide, by decide, by decide,
   well_formed_false_of_out_of_range_charm_index exSpellBadIdx (fun _ => none) []
     [((0 : Nat), ([] : Data))] ((0 : Nat), ([] : Data)) (by decide) (by decide) (by decide)⟩

/-! ## C3: beam closure -/

/-- **C3**: `well_formed` returns `true` only if every `(tx_in_utxo,
beam_source_utxo)` pair of the beam-hint map satisfies: the resolver maps
`tx_in_utxo`'s TxId to an entry with no spell, and maps `beam_source_utxo`'s
TxId to a spell whose `tx.beamed_outs` has, at `beam_source_utxo`'s output
index, exactly the SHA-256 hash of `tx_in_utxo`'s canonical 36-byte
encoding. -/
theorem well_formed_beam_closure
    (spell : NormalizedSpell) (M : Resolver) (hints : List (UtxoId × UtxoId))
    (hwf : well_formed spell M hints = true)
    (p : UtxoId × UtxoId) (hp : p ∈ hints) :
    (∃ n, M p.1.txid = some (none, n)) ∧
    ∃ sp n bo, M p.2.txid = some (some sp, n) ∧ sp.tx.beamed_outs = some bo ∧
      mapLookup bo p.2.vout = some (utxo_id_hash p.1) := by
  rw [well_formed_true_iff] at hwf
  obtain ⟨_, _, _, _, _, _, hb⟩ := hwf
  exact (beam_ok_iff M p).mp (List.all_eq_true.mp hb p hp)

theorem well_formed_beam_closure_witness :
    well_formed exSpell exResolver [(exUA, exUB)] = true ∧
    (∃ n, exResolver exUA.txid = some (none, n)) ∧
    (∃ sp n bo, exResolver exUB.txid = some (some sp, n) ∧
      sp.tx.beamed_outs = some bo ∧
      mapLookup bo exUB.vout = some (utxo_id_hash exUA)) :=
  ⟨by decide,
   well_formed_beam_closure exSpell exResolver [(exUA, exUB)] (by decide)
     (exUA, exUB) (by decide)⟩

/-! ## C2: beam hints whose destination is not a registered input -/

/-- **C2** counterexample: the claim says a beam-hint pair whose `tx_in_utxo`
is not one of the spell's registered inputs forces `well_formed = false`; but
here `exUA` is not an element of `tx.ins = some []`, the hint `(exUA, exUB)`
is in the map, and `well_formed` still returns `true` — the code never checks
membership of the hint's destination in `tx.ins`. -/
theorem well_formed_hint_not_registered_cex :
    exSpell.tx.ins = some [] ∧
    (exUA, exUB) ∈ [(exUA, exUB)] ∧
    exUA ∉ ([] : List UtxoId) ∧
    well_formed exSpell exResolver [(exUA, exUB)] = true :=
  ⟨by decide, by decide, by decide, by decide⟩

/-- **C2** (amended): `well_formed` does not require a beam-hint pair's
`tx_in_utxo` to be a registered input; what it does require of the pair's
destination is that its TxId resolve to a transaction carrying no spell — if
the TxId is absent from the resolver map, or resolves to a transaction that
carries a spell, `well_formed` returns `false`. -/
theorem well_formed_false_of_beam_dest_not_spellfree
    (spell : NormalizedSpell) (M : Resolver) (hints : List (UtxoId × UtxoId))
    (p : UtxoId × UtxoId) (hp : p ∈ hints)
    (hbad : M p.1.txid = none ∨ ∃ sp n, M p.1.txid = some (some sp, n)) :
    well_formed spell M hints = false := by
  cases hwf : well_formed spell M hints with
  | false => rfl
  | true =>
    rw [well_formed_true_iff] at hwf
    obtain ⟨_, _, _, _, _, _, hb⟩ := hwf
    have hok := (beam_ok_iff M p).mp (List.all_eq_true.mp hb p hp)
    obtain ⟨⟨n, hn⟩, _⟩ := hok
    cases hbad with
    | inl h => rw [h] at hn; cases hn
    | inr h =>
      obtain ⟨sp, n', h⟩ := h
      rw [h] at hn
      injection hn with hn'
      have := congrArg Prod.fst hn'
      simp at this

theorem well_formed_false_of_beam_dest_not_spellfree_witness :
    (exUA, exUB) ∈ [(exUA, exUB)] ∧
    ((fun _ => none : Resolver) exUA.txid = none ∨
      ∃ sp n, (fun _ => none : Resolver) exUA.txid = some (some sp, n)) ∧
    well_formed exSpell (fun _ => none) [(exUA, exUB)] = false :=
  ⟨by decide, Or.inl rfl,
   well_formed_false_of_beam_dest_not_spellfree exSpell (fun _ => none) [(exUA, exUB)]
     (exUA, exUB) (by decide) (Or.inl rfl)⟩

/-! ## C4: monotonicity in the resolver map -/

theorem directly_monotone (M M' : Resolver)
    (hsub : ∀ k v, M k = some v → M' k = some v) (u : UtxoId)
    (h : directly_created_by_prev_txns M u = true) :
    directly_created_by_prev_txns M' u = true := by
  rw [directly_true_iff] at h ⊢
  obtain ⟨e, he, h1, h2⟩ := h
  exact ⟨e, hsub _ _ he, h1, h2⟩

theorem beam_ok_monotone (M M' : Resolver)
    (hsub : ∀ k v, M k = some v → M' k = some v) (p : UtxoId × UtxoId)
    (h : beamed_source_ok M p = true) :
    beamed_source_ok M' p = true := by
  rw [beam_ok_iff] at h ⊢
  obtain ⟨⟨n, hn⟩, sp, n', bo, h1, h2, h3⟩ := h
  exact ⟨⟨n, hsub _ _ hn⟩, sp, n', bo, hsub _ _ h1, h2, h3⟩

/-- **C4**: if `well_formed` holds against resolver map `M`, it holds against
any `M'` ⊇ `M` that agrees with `M` on `M`'s keys: adding unrelated
prerequisite transactions never breaks a previously-valid spell. -/
theorem well_formed_monotone
    (spell : NormalizedSpell) (M M' : Resolver) (hints : List (UtxoId × UtxoId))
    (hwf : well_formed spell M hints = true)
    (hsub : ∀ k v, M k = some v → M' k = some v) :
    well_formed spell M' hints = true := by
  rw [well_formed_true_iff] at hwf ⊢
  obtain ⟨h1, h2, l, hl, hi, hr, hb⟩ := hwf
  refine ⟨h1, h2, l, hl, ?_, ?_, ?_⟩
  · rw [List.all_eq_true] at hi ⊢
    exact fun u hu => directly_monotone M M' hsub u (hi u hu)
  · rw [List.all_eq_true] at hr ⊢
    exact fun u hu => directly_monotone M M' hsub u (hr u hu)
  · rw [List.all_eq_true] at hb ⊢
    exact fun p hp => beam_ok_monotone M M' hsub p (hb p hp)

theorem exResolver_sub :
    ∀ k v, exResolver k = some v → exResolverBig k = some v := by
  intro k v h
  unfold exResolverBig
  by_cases hk : k = exTxC
  · subst hk
    rw [show exResolver exTxC = none from by decide] at h
    cases h
  · rw [if_neg hk]
    exact h

theorem well_formed_monotone_witness :
    well_formed exSpell exResolver [(exUA, exUB)] = true ∧
    well_formed exSpell exResolverBig [(exUA, exUB)] = true :=
  ⟨by decide,
   well_formed_monotone exSpell exResolver exResolverBig [(exUA, exUB)] (by decide)
     exResolver_sub⟩

/-! ## C7: the outs-length bound at extraction time -/

/-- **C7**: extraction enforces the outs-length bound against the raw
transaction.  For Bitcoin, `extract_and_verify_spell` fails whenever the
parsed spell's `tx.outs` is longer than the hosting transaction's output
list; for Cardano the spell-carrying last output does not count, so a spell
whose `tx.outs` length even equals the raw output count is rejected. -/
theorem extract_enforces_outs_length_bound :
    (∀ (read : List Nat → Option (NormalizedSpell × Proof))
       (verify : NormalizedSpell → Proof → Bool)
       (tx : BitcoinTx) (lastIn : TxIn) (spell : NormalizedSpell) (proof : Proof),
      tx.input.getLast? = some lastIn →
      parse_spell_and_proof read lastIn = some (spell, proof) →
      tx.output.length < spell.tx.outs.length →
      BitcoinTx.extract_and_verify_spell read verify tx = none) ∧
    (∀ (read : List Nat → Option (NormalizedSpell × Proof))
       (verify : NormalizedSpell → Proof → Bool)
       (tx : CardanoTx) (spell_data : List Nat) (spell : NormalizedSpell) (proof : Proof),
      tx.outputs.getLast? =
        some (CardanoOutput.conway (some (DatumOption.datum (PlutusDatum.bytes spell_data)))) →
      read spell_data = some (spell, proof) →
      tx.outputs.length ≤ spell.tx.outs.length →
      CardanoTx.extract_and_verify_spell read verify tx = none) := by
  constructor
  · intro read verify tx lastIn spell proof hlast hparse hlen
    cases hins : spell.tx.ins with
    | some l => simp [BitcoinTx.extract_and_verify_spell, hlast, hparse, hins]
    | none =>
      simp only [BitcoinTx.extract_and_verify_spell, hlast, hparse, hins,
        Option.isSome_none, Bool.false_eq_true, if_false]
      rw [if_pos]
      omega
  · intro read verify tx spell_data spell proof hlastOut hread hlen
    unfold CardanoTx.extract_and_verify_spell
    by_cases hi : tx.inputs.length = 0
    · rw [if_pos hi]
    · rw [if_neg hi]
      have ho : ¬ tx.outputs.length = 0 := by
        intro h
        rw [List.length_eq_zero.mp h] at hlastOut
        cases hlastOut
      rw [if_neg ho]
      cases hins : spell.tx.ins with
      | some l => simp [hlastOut, hread, hins]
      | none =>
        simp only [hlastOut, hread, hins, Option.isSome_none, Bool.false_eq_true, if_false]
        rw [if_pos]
        omega

theorem extract_enforces_outs_length_bound_witness :
    (exBtcTx.input.getLast? = some exTxInGood ∧
     parse_spell_and_proof exRead exTxInGood = some (exSpellUnbound, []) ∧
     exBtcTx.output.length < exSpellUnbound.tx.outs.length ∧
     BitcoinTx.extract_and_verify_spell exRead (fun _ _ => true) exBtcTx = none) ∧
    (exCdnTx.outputs.getLast? =
       some (CardanoOutput.conway (some (DatumOption.datum (PlutusDatum.bytes [])))) ∧
     exRead [] = some (exSpellUnbound, []) ∧
     exCdnTx.outputs.length ≤ exSpellUnbound.tx.outs.length ∧
     CardanoTx.extract_and_verify_spell exRead (fun _ _ => true) exCdnTx = none) :=
  ⟨⟨by decide, by decide, by decide,
    extract_enforces_outs_length_bound.1 exRead (fun _ _ => true) exBtcTx exTxInGood
      exSpellUnbound [] (by decide) (by decide) (by decide)⟩,
   ⟨by decide, by decide, by decide,
    extract_enforces_outs_length_bound.2 exRead (fun _ _ => true) exCdnTx []
      exSpellUnbound [] (by decide) (by decide) (by decide)⟩⟩

/-! ## C8: ambiguous (multi-leaf) taproot commitments are rejected -/

/-- **C8**: if the spell-carrying (last) input's Taproot control block is not
33 bytes long — i.e. the script tree has more than one leaf — extraction
returns an error, never a spell parsed from one of the candidate scripts. -/
theorem btc_extract_rejects_multileaf
    (read : List Nat → Option (NormalizedSpell × Proof))
    (verify : NormalizedSpell → Proof → Bool)
    (tx : BitcoinTx) (lastIn : TxIn) (cb : List Nat)
    (hlast : tx.input.getLast? = some lastIn)
    (hcb : lastIn.taproot_control_block = some cb)
    (hlen : cb.length ≠ 33) :
    BitcoinTx.extract_and_verify_spell read verify tx = none := by
  have hp : parse_spell_and_proof read lastIn = none := by
    simp [parse_spell_and_proof, hcb, hlen]
  simp [BitcoinTx.extract_and_verify_spell, hlast, hp]

theorem btc_extract_rejects_multileaf_witness :
    exBtcTxMulti.input.getLast? = some exTxInMultiLeaf ∧
    exTxInMultiLeaf.taproot_control_block = some (List.replicate 65 0) ∧
    (List.replicate 65 (0 : Nat)).length ≠ 33 ∧
    BitcoinTx.extract_and_verify_spell exRead (fun _ _ => true) exBtcTxMulti = none :=
  ⟨by decide, by decide, by decide,
   btc_extract_rejects_multileaf exRead (fun _ _ => true) exBtcTxMulti exTxInMultiLeaf
     (List.replicate 65 0) (by decide) (by decide) (by decide)⟩

/-! ## C10: totality of charm projection on well-formed spells -/

theorem mapLookup_mem {α : Type*} {β : Type*} [DecidableEq α]
    {m : List (α × β)} {k : α} {v : β} (h : mapLookup m k = some v) : (k, v) ∈ m := by
  induction m with
  | nil => cases h
  | cons kv rest ih =>
    obtain ⟨k', v'⟩ := kv
    unfold mapLookup at h
    by_cases hk : k = k'
    · rw [if_pos hk] at h
      injection h with h'
      subst hk
      subst h'
      exact List.mem_cons_self _ _
    · rw [if_neg hk] at h
      exact List.mem_cons_of_mem _ (ih h)

theorem optionMapM_isSome {α : Type*} {β : Type*} (f : α → Option β) :
    ∀ l : List α, (∀ x ∈ l, (f x).isSome) → (optionMapM f l).isSome
  | [], _ => by simp [optionMapM]
  | x :: l, h => by
    obtain ⟨b, hb⟩ := Option.isSome_iff_exists.mp (h x (List.mem_cons_self _ _))
    obtain ⟨bs, hbs⟩ := Option.isSome_iff_exists.mp
      (optionMapM_isSome f l (fun y hy => h y (List.mem_cons_of_mem _ hy)))
    simp [optionMapM, hb, hbs]

theorem charms_isSome_of_bounds (spell : NormalizedSpell) (nch : NormalizedCharms)
    (h : ∀ q ∈ nch, q.1 < spell.app_public_inputs.length) :
    (charms spell nch).isSome := by
  have hs : (optionMapM (fun p => ((apps spell)[p.1]?).map (fun a => (a, p.2))) nch).isSome := by
    apply optionMapM_isSome
    intro q hq
    have hlt : q.1 < (apps spell).length := by
      unfold apps
      rw [List.length_map]
      exact h q hq
    rw [List.getElem?_eq_getElem hlt]
    simp
  obtain ⟨v, hv⟩ := Option.isSome_iff_exists.mp hs
  simp [charms, hv]

theorem charms_in_utxo_isSome (psp : NormalizedSpell) (u : UtxoId)
    (h : ∀ nch ∈ psp.tx.outs, ∀ q ∈ nch, q.1 < psp.app_public_inputs.length) :
    (charms_in_utxo psp u).isSome := by
  cases ho : psp.tx.outs[u.vout]? with
  | none => simp [charms_in_utxo, ho]
  | some nch =>
    have hm : nch ∈ psp.tx.outs := by
      obtain ⟨hlt, hg⟩ := List.getElem?_eq_some.mp ho
      rw [← hg]
      exact List.getElem_mem hlt
    obtain ⟨c, hc⟩ := Option.isSome_iff_exists.mp (charms_isSome_of_bounds psp nch (h nch hm))
    simp [charms_in_utxo, ho, hc]

theorem beamed_fallback_isSome
    (M : Resolver) (hints : List (UtxoId × UtxoId)) (u : UtxoId)
    (hb : ∀ p ∈ hints, beamed_source_ok M p = true)
    (hprev : ∀ t sp n, M t = some (some sp, n) →
      ∀ nch ∈ sp.tx.outs, ∀ q ∈ nch, q.1 < sp.app_public_inputs.length) :
    (beamed_fallback M hints u).isSome := by
  cases hL : mapLookup hints u with
  | none => simp [beamed_fallback, hL]
  | some src =>
    have hmem : (u, src) ∈ hints := mapLookup_mem hL
    obtain ⟨_, sp, n, bo, hsrc, _, _⟩ := (beam_ok_iff M (u, src)).mp (hb (u, src) hmem)
    have hc := charms_in_utxo_isSome sp src (hprev _ sp n hsrc)
    simpa [beamed_fallback, hL, hsrc] using hc

theorem from_utxo_id_isSome
    (M : Resolver) (hints : List (UtxoId × UtxoId)) (u : UtxoId)
    (hu : directly_created_by_prev_txns M u = true)
    (hb : ∀ p ∈ hints, beamed_source_ok M p = true)
    (hprev : ∀ t sp n, M t = some (some sp, n) →
      ∀ nch ∈ sp.tx.outs, ∀ q ∈ nch, q.1 < sp.app_public_inputs.length) :
    (from_utxo_id M hints u).isSome := by
  rw [directly_true_iff] at hu
  obtain ⟨e, he, _, _⟩ := hu
  obtain ⟨spOpt, n⟩ := e
  obtain ⟨fb, hfb'⟩ := Option.isSome_iff_exists.mp (beamed_fallback_isSome M hints u hb hprev)
  cases spOpt with
  | none => cases fb <;> simp [from_utxo_id, he, hfb']
  | some psp =>
    obtain ⟨c, hc⟩ :=
      Option.isSome_iff_exists.mp (charms_in_utxo_isSome psp u (hprev _ psp n he))
    cases c with
    | some cs => simp [from_utxo_id, he, hc]
    | none => cases fb <;> simp [from_utxo_id, he, hc, hfb']

/-- **C10**: on any `NormalizedSpell`, resolver map and beam-hint map with
`well_formed = true`, and whose resolver-recorded prior spells all have their
own output charm indices within their own `app_public_inputs` bounds, charm
projection `to_tx` is total: no panic branch is reachable. -/
theorem to_tx_total
    (spell : NormalizedSpell) (M : Resolver) (hints : List (UtxoId × UtxoId))
    (hwf : well_formed spell M hints = true)
    (hprev : ∀ t sp n, M t = some (some sp, n) →
      ∀ nch ∈ sp.tx.outs, ∀ q ∈ nch, q.1 < sp.app_public_inputs.length) :
    (to_tx spell M hints).isSome := by
  rw [well_formed_true_iff] at hwf
  obtain ⟨_, ho, l, hl, hi, hr, hb⟩ := hwf
  have hbP : ∀ p ∈ hints, beamed_source_ok M p = true := List.all_eq_true.mp hb
  have h1 : (optionMapM (from_utxo_id M hints) l).isSome :=
    optionMapM_isSome _ _ (fun u hu =>
      from_utxo_id_isSome M hints u (List.all_eq_true.mp hi u hu) hbP hprev)
  have h2 : (optionMapM (from_utxo_id M hints) spell.tx.refs).isSome :=
    optionMapM_isSome _ _ (fun u hu =>
      from_utxo_id_isSome M hints u (List.all_eq_true.mp hr u hu) hbP hprev)
  have h3 : (optionMapM (charms spell) spell.tx.outs).isSome :=
    optionMapM_isSome _ _ (fun nch hn => by
      apply charms_isSome_of_bounds
      intro q hq
      have := List.all_eq_true.mp (List.all_eq_true.mp ho nch hn) q hq
      simpa using this)
  obtain ⟨a, ha⟩ := Option.isSome_iff_exists.mp h1
  obtain ⟨b, hb2⟩ := Option.isSome_iff_exists.mp h2
  obtain ⟨c, hc2⟩ := Option.isSome_iff_exists.mp h3
  simp [to_tx, hl, ha, hb2, hc2]

theorem to_tx_total_witness :
    well_formed exSpell (fun _ => none) [] = true ∧
    (to_tx exSpell (fun _ => none) []).isSome :=
  ⟨by decide,
   to_tx_total exSpell (fun _ => none) [] (by decide)
     (fun _ _ _ h => nomatch h)⟩

/-! ## C9: UtxoId encodings round-trip -/

theorem leNat_leBytes (v : Nat) (hv : v < 4294967296) : leNat (leBytes 4 v) = v := by
  have h4 : List.range 4 = [0, 1, 2, 3] := rfl
  simp only [leBytes, h4, List.map_cons, List.map_nil, leNat, List.foldr_cons, List.foldr_nil,
    Nat.shiftRight_eq_div_pow]
  omega

theorem hexDigitVal_hexDigitChar : ∀ x < 16, hexDigitVal (hexDigitChar x) = some x := by
  decide

theorem hexDigitChar_ne_colon : ∀ x < 16, hexDigitChar x ≠ ':' := by
  decide

theorem hexDecode_hexEncode :
    ∀ bs : List Nat, (∀ b ∈ bs, b < 256) → hexDecode (hexEncode bs) = some bs := by
  intro bs
  induction bs with
  | nil => intro _; rfl
  | cons b rest ih =>
    intro h
    have hb : (b : Nat) < 256 := h b (List.mem_cons_self _ _)
    have h1 : b / 16 < 16 := by omega
    have h2 : b % 16 < 16 := by omega
    have hrest := ih (fun x hx => h x (List.mem_cons_of_mem _ hx))
    simp only [hexEncode, hexDecode, hexDigitVal_hexDigitChar _ h1,
      hexDigitVal_hexDigitChar _ h2, hrest, Option.bind_eq_bind, Option.some_bind]
    have : b / 16 * 16 + b % 16 = b := by omega
    rw [this]
    rfl

theorem colon_not_mem_hexEncode :
    ∀ bs : List Nat, (∀ b ∈ bs, b < 256) → ':' ∉ hexEncode bs := by
  intro bs
  induction bs with
  | nil => intro _ hmem; cases hmem
  | cons b rest ih =>
    intro h hmem
    have hb : (b : Nat) < 256 := h b (List.mem_cons_self _ _)
    simp only [hexEncode, List.mem_cons] at hmem
    rcases hmem with hc | hc | hc
    · exact hexDigitChar_ne_colon (b / 16) (by omega) hc.symm
    · exact hexDigitChar_ne_colon (b % 16) (by omega) hc.symm
    · exact ih (fun x hx => h x (List.mem_cons_of_mem _ hx)) hc

theorem natDigitsFuel_spec :
    ∀ fuel n, n ≤ fuel →
      (∀ d ∈ natDigitsFuel fuel n, d < 10) ∧
      (natDigitsFuel fuel n).foldl (fun acc d => acc * 10 + d) 0 = n ∧
      natDigitsFuel fuel n ≠ [] := by
  intro fuel
  induction fuel with
  | zero =>
    intro n hn
    obtain rfl : n = 0 := by omega
    refine ⟨?_, rfl, by simp [natDigitsFuel]⟩
    intro d hd
    simp only [natDigitsFuel, List.mem_singleton] at hd
    omega
  | succ fuel ih =>
    intro n hn
    by_cases h10 : n < 10
    · refine ⟨?_, ?_, ?_⟩
      · intro d hd
        simp only [natDigitsFuel, if_pos h10, List.mem_singleton] at hd
        omega
      · simp [natDigitsFuel, h10]
      · simp [natDigitsFuel, h10]
    · have hrec : n / 10 ≤ fuel := by omega
      obtain ⟨ihd, ihf, _⟩ := ih (n / 10) hrec
      simp only [natDigitsFuel, h10, if_false]
      refine ⟨?_, ?_, by simp⟩
      · intro d hd
        rw [List.mem_append] at hd
        cases hd with
        | inl hd => exact ihd d hd
        | inr hd =>
          simp only [List.mem_singleton] at hd
          omega
      · rw [List.foldl_append, ihf]
        simp only [List.foldl_cons, List.foldl_nil]
        omega

theorem natDigits_lt_ten (n : Nat) : ∀ d ∈ natDigits n, d < 10 :=
  (natDigitsFuel_spec n n le_rfl).1

theorem natDigits_foldl (n : Nat) :
    (natDigits n).foldl (fun acc d => acc * 10 + d) 0 = n :=
  (natDigitsFuel_spec n n le_rfl).2.1

theorem natDigits_ne_nil (n : Nat) : natDigits n ≠ [] :=
  (natDigitsFuel_spec n n le_rfl).2.2

theorem decDigitVal_decDigitChar : ∀ d < 10, decDigitVal (decDigitChar d) = some d := by
  decide

theorem decDigitChar_ne_colon : ∀ d < 10, decDigitChar d ≠ ':' := by
  decide

theorem decDigitChar_ne_plus : ∀ d < 10, decDigitChar d ≠ '+' := by
  decide

theorem colon_not_mem_decimalChars (n : Nat) : ':' ∉ decimalChars n := by
  intro hmem
  simp only [decimalChars, List.mem_map] at hmem
  obtain ⟨d, hd, hc⟩ := hmem
  exact decDigitChar_ne_colon d (natDigits_lt_ten n d hd) hc

theorem splitOnChar_cons_ne (c x : Char) (l : List Char) (hx : x ≠ c) :
    splitOnChar c (x :: l) =
      match splitOnChar c l with
      | [] => [[x]]
      | p :: ps => (x :: p) :: ps := by
  simp [splitOnChar, hx]

theorem splitOnChar_ne_nil (c : Char) : ∀ l : List Char, splitOnChar c l ≠ [] := by
  intro l
  cases l with
  | nil => simp [splitOnChar]
  | cons x xs =>
    by_cases hx : x = c
    · simp [splitOnChar, hx]
    · rw [splitOnChar_cons_ne c x xs hx]
      cases splitOnChar c xs <;> simp

theorem splitOnChar_no_sep (c : Char) :
    ∀ l : List Char, c ∉ l → splitOnChar c l = [l] := by
  intro l
  induction l with
  | nil => intro _; rfl
  | cons x xs ih =>
    intro h
    have hx : x ≠ c := fun hxc => h (hxc ▸ List.mem_cons_self _ _)
    have hxs : c ∉ xs := fun hmem => h (List.mem_cons_of_mem _ hmem)
    rw [splitOnChar_cons_ne c x xs hx, ih hxs]

theorem splitOnChar_sep (c : Char) :
    ∀ l r : List Char, c ∉ l → splitOnChar c (l ++ c :: r) = l :: splitOnChar c r := by
  intro l
  induction l with
  | nil =>
    intro r _
    simp [splitOnChar]
  | cons x xs ih =>
    intro r h
    have hx : x ≠ c := fun hxc => h (hxc ▸ List.mem_cons_self _ _)
    have hxs : c ∉ xs := fun hmem => h (List.mem_cons_of_mem _ hmem)
    rw [List.cons_append, splitOnChar_cons_ne c x _ hx, ih r hxs]

theorem optionMapM_decDigit (l : List Nat) (h : ∀ d ∈ l, d < 10) :
    optionMapM decDigitVal (l.map decDigitChar) = some l := by
  induction l with
  | nil => rfl
  | cons d rest ih =>
    simp only [List.map_cons, optionMapM,
      decDigitVal_decDigitChar d (h d (List.mem_cons_self _ _)),
      ih (fun x hx => h x (List.mem_cons_of_mem _ hx))]

theorem parseU32_decimalChars (v : Nat) (hv : v < 4294967296) :
    parseU32 (decimalChars v) = some v := by
  have hne := natDigits_ne_nil v
  have hlt := natDigits_lt_ten v
  have hhead : (decimalChars v).head? ≠ some '+' := by
    cases hd : natDigits v with
    | nil => exact absurd hd hne
    | cons d rest =>
      have hd10 : d < 10 := hlt d (hd ▸ List.mem_cons_self _ _)
      simp only [decimalChars, hd, List.map_cons, List.head?_cons, ne_eq, Option.some.injEq]
      exact decDigitChar_ne_plus d hd10
  unfold parseU32
  rw [if_neg hhead, show decimalChars v = (natDigits v).map decDigitChar from rfl,
    optionMapM_decDigit _ hlt]
  cases hd : natDigits v with
  | nil => exact absurd hd hne
  | cons d rest =>
    simp only [← hd, natDigits_foldl, if_pos hv]

/-- **C9**: decoding the canonical encoding of a `UtxoId` returns it in both
representations: `from_bytes (to_bytes u) = u` for the fixed-width 36-byte
binary form, and `from_str` applied to the human-readable
`hex(txid):index` string returns `u`. -/
theorem utxoId_roundtrip (u : UtxoId)
    (hlen : u.txid.length = 32)
    (hbytes : ∀ b ∈ u.txid, b < 256)
    (hvout : u.vout < 4294967296) :
    UtxoId.from_bytes (UtxoId.to_bytes u) = u ∧
    UtxoId.from_str (UtxoId.toStringChars u) = some u := by
  constructor
  · unfold UtxoId.from_bytes UtxoId.to_bytes
    rw [List.take_left' hlen, List.drop_left' hlen, leNat_leBytes u.vout hvout]
  · unfold UtxoId.from_str UtxoId.toStringChars
    rw [splitOnChar_sep ':' (hexEncode u.txid) (decimalChars u.vout)
        (colon_not_mem_hexEncode u.txid hbytes),
      splitOnChar_no_sep ':' (decimalChars u.vout) (colon_not_mem_decimalChars u.vout)]
    simp only [hexDecode_hexEncode u.txid hbytes, hlen, ne_eq, not_true_eq_false,
      if_false, parseU32_decimalChars u.vout hvout]

theorem utxoId_roundtrip_witness :
    exUA.txid.length = 32 ∧ (∀ b ∈ exUA.txid, b < 256) ∧ exUA.vout < 4294967296 ∧
    (UtxoId.from_bytes (UtxoId.to_bytes exUA) = exUA ∧
     UtxoId.from_str (UtxoId.toStringChars exUA) = some exUA) :=
  ⟨by decide, by decide, by decide,
   utxoId_roundtrip exUA (by decide) (by decide) (by decide)⟩

/-! ## B-tree model lemmas (canonicity of `setOfList` / `mapOfList`) -/

section SortedSetLemmas

variable {α : Type*} [LinearOrder α]

theorem mem_setInsert (a b : α) : ∀ l : List α, a ∈ setInsert b l ↔ a = b ∨ a ∈ l
  | [] => by simp [setInsert]
  | c :: rest => by
    unfold setInsert
    by_cases h1 : b < c
    · simp [h1]
    · by_cases h2 : b = c
      · subst h2
        rw [if_neg h1, if_pos rfl]
        simp only [List.mem_cons]
        tauto
      · rw [if_neg h1, if_neg h2]
        simp only [List.mem_cons, mem_setInsert a b rest]
        tauto

theorem sorted_setInsert (a : α) :
    ∀ l : List α, l.Sorted (· < ·) → (setInsert a l).Sorted (· < ·)
  | [] => fun _ => by simp [setInsert]
  | b :: rest => fun hs => by
    rw [List.sorted_cons] at hs
    obtain ⟨hb, hrest⟩ := hs
    unfold setInsert
    by_cases h1 : a < b
    · rw [if_pos h1, List.sorted_cons]
      refine ⟨?_, List.sorted_cons.mpr ⟨hb, hrest⟩⟩
      intro x hx
      rcases List.mem_cons.mp hx with rfl | hx
      · exact h1
      · exact lt_trans h1 (hb x hx)
    · by_cases h2 : a = b
      · rw [if_neg h1, if_pos h2, List.sorted_cons]
        exact ⟨hb, hrest⟩
      · rw [if_neg h1, if_neg h2, List.sorted_cons]
        refine ⟨?_, sorted_setInsert a rest hrest⟩
        intro x hx
        rcases (mem_setInsert x a rest).mp hx with rfl | hx
        · exact lt_of_le_of_ne (le_of_not_lt h1) (Ne.symm h2)
        · exact hb x hx

theorem setFold_sorted :
    ∀ (l acc : List α), acc.Sorted (· < ·) →
      (l.foldl (fun s a => setInsert a s) acc).Sorted (· < ·)
  | [], _, h => h
  | x :: l, acc, h => setFold_sorted l _ (sorted_setInsert x acc h)

theorem mem_setFold (a : α) :
    ∀ (l acc : List α), a ∈ l.foldl (fun s a => setInsert a s) acc ↔ a ∈ acc ∨ a ∈ l
  | [], acc => by simp
  | x :: l, acc => by
    rw [List.foldl_cons, mem_setFold a l (setInsert x acc), mem_setInsert a x acc]
    simp only [List.mem_cons]
    tauto

theorem setOfList_sorted (l : List α) : (setOfList l).Sorted (· < ·) :=
  setFold_sorted l [] (by simp)

theorem mem_setOfList (a : α) (l : List α) : a ∈ setOfList l ↔ a ∈ l := by
  rw [setOfList, mem_setFold]
  simp

theorem setOfList_nodup (l : List α) : (setOfList l).Nodup :=
  (setOfList_sorted l).nodup

theorem setOfList_eq_of_mem (l l' : List α) (h : ∀ a, a ∈ l ↔ a ∈ l') :
    setOfList l = setOfList l' := by
  haveI : IsAntisymm α (· < ·) := ⟨fun a b h1 h2 => absurd h2 (lt_asymm h1)⟩
  refine List.eq_of_perm_of_sorted ?_ (setOfList_sorted l) (setOfList_sorted l')
  rw [List.perm_ext_iff_of_nodup (setOfList_nodup l) (setOfList_nodup l')]
  intro a
  rw [mem_setOfList, mem_setOfList]
  exact h a

theorem setOfList_perm_dedup (l : List α) : (setOfList l).Perm l.dedup := by
  rw [List.perm_ext_iff_of_nodup (setOfList_nodup l) (List.nodup_dedup l)]
  intro a
  rw [mem_setOfList, List.mem_dedup]

theorem nodup_of_setOfList_length (l : List α) (h : (setOfList l).length = l.length) :
    l.Nodup := by
  have h1 := (setOfList_perm_dedup l).length_eq
  have h2 : l.dedup.length = l.length := by omega
  have h3 := (List.dedup_sublist l).eq_of_length h2
  rw [← h3]
  exact List.nodup_dedup l

end SortedSetLemmas

section SortedMapLemmas

variable {α : Type*} {β : Type*} [LinearOrder α]

theorem mem_keys_mapInsert (a k : α) (v : β) :
    ∀ m : List (α × β), a ∈ mapKeys (mapInsert k v m) ↔ a = k ∨ a ∈ mapKeys m
  | [] => by simp [mapInsert, mapKeys]
  | (k', v') :: rest => by
    unfold mapInsert
    by_cases h1 : k < k'
    · simp [h1, mapKeys]
    · by_cases h2 : k = k'
      · subst h2
        rw [if_neg h1, if_pos rfl]
        simp only [mapKeys, List.map_cons, List.mem_cons]
        tauto
      · rw [if_neg h1, if_neg h2]
        simp only [mapKeys, List.map_cons, List.mem_cons]
        rw [show (List.map (·.1) (mapInsert k v rest) : List α) = mapKeys (mapInsert k v rest)
          from rfl, mem_keys_mapInsert a k v rest]
        simp only [mapKeys]
        tauto

/-- Key-sortedness: the `BTreeMap` invariant. -/
abbrev KeysSorted (m : List (α × β)) : Prop :=
  m.Sorted (fun p q => p.1 < q.1)

theorem sorted_mapInsert (k : α) (v : β) :
    ∀ m : List (α × β), KeysSorted m → KeysSorted (mapInsert k v m)
  | [] => fun _ => by simp [mapInsert, KeysSorted]
  | (k', v') :: rest => fun hs => by
    rw [KeysSorted, List.sorted_cons] at hs
    obtain ⟨hb, hrest⟩ := hs
    unfold mapInsert
    by_cases h1 : k < k'
    · rw [if_pos h1, KeysSorted, List.sorted_cons]
      refine ⟨?_, List.sorted_cons.mpr ⟨hb, hrest⟩⟩
      intro q hq
      rcases List.mem_cons.mp hq with rfl | hq
      · exact h1
      · exact lt_trans h1 (hb q hq)
    · by_cases h2 : k = k'
      · subst h2
        rw [if_neg h1, if_pos rfl, KeysSorted, List.sorted_cons]
        exact ⟨hb, hrest⟩
      · rw [if_neg h1, if_neg h2, KeysSorted, List.sorted_cons]
        refine ⟨?_, sorted_mapInsert k v rest hrest⟩
        intro q hq
        have : q.1 ∈ mapKeys (mapInsert k v rest) := List.mem_map_of_mem _ hq
        rcases (mem_keys_mapInsert q.1 k v rest).mp this with hqk | hqm
        · rw [hqk]
          exact lt_of_le_of_ne (le_of_not_lt h1) (Ne.symm h2)
        · obtain ⟨p, hp, hpq⟩ := List.mem_map.mp hqm
          rw [← hpq]
          exact hb p hp

theorem mapInsert_perm (k : α) (v : β) :
    ∀ m : List (α × β), k ∉ mapKeys m → (mapInsert k v m).Perm ((k, v) :: m)
  | [] => fun _ => List.Perm.refl _
  | (k', v') :: rest => fun h => by
    simp only [mapKeys, List.map_cons, List.mem_cons] at h
    push_neg at h
    obtain ⟨hk, hrest⟩ := h
    unfold mapInsert
    by_cases h1 : k < k'
    · rw [if_pos h1]
    · rw [if_neg h1, if_neg hk]
      refine List.Perm.trans ?_ (List.Perm.swap (k, v) (k', v') rest)
      exact List.Perm.cons _ (mapInsert_perm k v rest (by simpa [mapKeys] using hrest))

theorem mapFold_sorted :
    ∀ (l acc : List (α × β)), KeysSorted acc →
      KeysSorted (l.foldl (fun m kv => mapInsert kv.1 kv.2 m) acc)
  | [], _, h => h
  | kv :: l, acc, h => mapFold_sorted l _ (sorted_mapInsert kv.1 kv.2 acc h)

theorem mapFold_perm :
    ∀ (l acc : List (α × β)), (mapKeys acc ++ mapKeys l).Nodup →
      (l.foldl (fun m kv => mapInsert kv.1 kv.2 m) acc).Perm (acc ++ l)
  | [], acc, _ => by simp
  | kv :: l, acc, h => by
    have hsplit : (mapKeys acc ++ mapKeys (kv :: l)).Perm
        (kv.1 :: (mapKeys acc ++ mapKeys l)) := by
      simp only [mapKeys, List.map_cons]
      exact List.perm_middle
    have hnd : (kv.1 :: (mapKeys acc ++ mapKeys l)).Nodup := hsplit.nodup_iff.mp h
    rw [List.nodup_cons] at hnd
    obtain ⟨hknotin, hnd'⟩ := hnd
    have hkacc : kv.1 ∉ mapKeys acc := fun hmem =>
      hknotin (List.mem_append.mpr (Or.inl hmem))
    have hstep : (mapInsert kv.1 kv.2 acc).Perm ((kv.1, kv.2) :: acc) :=
      mapInsert_perm kv.1 kv.2 acc hkacc
    have hkeys1 : (mapKeys (mapInsert kv.1 kv.2 acc)).Perm (kv.1 :: mapKeys acc) := by
      have hm := hstep.map (·.1)
      simpa [mapKeys] using hm
    have hnd2 : (mapKeys (mapInsert kv.1 kv.2 acc) ++ mapKeys l).Nodup := by
      refine (List.Perm.append_right (mapKeys l) hkeys1).nodup_iff.mpr ?_
      rw [List.cons_append]
      exact List.nodup_cons.mpr ⟨hknotin, hnd'⟩
    refine List.Perm.trans (mapFold_perm l _ hnd2) ?_
    refine List.Perm.trans (hstep.append_right l) ?_
    rw [List.cons_append]
    have hkv : (kv.1, kv.2) = kv := rfl
    rw [hkv]
    exact List.perm_middle.symm

theorem mapOfList_sorted (l : List (α × β)) : KeysSorted (mapOfList l) :=
  mapFold_sorted l [] (by simp [KeysSorted])

theorem mapOfList_keys_nodup (l : List (α × β)) : (mapKeys (mapOfList l)).Nodup := by
  have hp : List.Pairwise (fun p q : α × β => p.1 < q.1) (mapOfList l) :=
    mapOfList_sorted l
  have hs : List.Pairwise (· < ·) (mapKeys (mapOfList l)) :=
    @List.Pairwise.map _ _ (fun p q : α × β => p.1 < q.1) (mapOfList l) (· < ·)
      (·.1) (fun _ _ h => h) hp
  exact List.Sorted.nodup hs

theorem mapOfList_perm (l : List (α × β)) (h : (mapKeys l).Nodup) :
    (mapOfList l).Perm l :=
  mapFold_perm l [] (by simpa [mapKeys] using h)

theorem mapOfList_eq_of_perm (l l' : List (α × β)) (h : (mapKeys l).Nodup)
    (hp : l.Perm l') : mapOfList l = mapOfList l' := by
  haveI : IsAntisymm (α × β) (fun p q => p.1 < q.1) :=
    ⟨fun a b h1 h2 => absurd h2 (lt_asymm h1)⟩
  have h' : (mapKeys l').Nodup := ((hp.map (·.1)).nodup_iff).mp h
  refine List.eq_of_perm_of_sorted ?_ (mapOfList_sorted l) (mapOfList_sorted l')
  exact ((mapOfList_perm l h).trans hp).trans (mapOfList_perm l' h').symm

variable [DecidableEq α]

theorem mapLookup_none_iff {m : List (α × β)} {k : α} :
    mapLookup m k = none ↔ k ∉ mapKeys m := by
  induction m with
  | nil => simp [mapLookup, mapKeys]
  | cons kv rest ih =>
    obtain ⟨k', v'⟩ := kv
    unfold mapLookup
    by_cases hk : k = k'
    · simp [hk, mapKeys]
    · simp only [if_neg hk, ih, mapKeys, List.map_cons, List.mem_cons]
      tauto

theorem mapLookup_some_of_mem {m : List (α × β)} {k : α} {v : β}
    (hnd : (mapKeys m).Nodup) (hmem : (k, v) ∈ m) : mapLookup m k = some v := by
  induction m with
  | nil => cases hmem
  | cons kv rest ih =>
    obtain ⟨k', v'⟩ := kv
    simp only [mapKeys, List.map_cons, List.nodup_cons] at hnd
    obtain ⟨hk', hnd'⟩ := hnd
    rcases List.mem_cons.mp hmem with heq | hmem'
    · injection heq with e1 e2
      subst e1
      subst e2
      simp [mapLookup]
    · have hkne : k ≠ k' := by
        intro rfl0
        subst rfl0
        exact hk' (List.mem_map_of_mem (·.1) hmem')
      rw [mapLookup, if_neg hkne]
      exact ih hnd' hmem'

theorem mapLookup_eq_of_perm {l l' : List (α × β)} (h : (mapKeys l).Nodup)
    (hp : l.Perm l') (k : α) : mapLookup l k = mapLookup l' k := by
  have h' : (mapKeys l').Nodup := ((hp.map (·.1)).nodup_iff).mp h
  cases hL : mapLookup l k with
  | none =>
    rw [mapLookup_none_iff] at hL
    rw [eq_comm, mapLookup_none_iff]
    intro hmem
    exact hL (((hp.map (·.1)).mem_iff).mpr hmem)
  | some v =>
    have hmem : (k, v) ∈ l' := hp.mem_iff.mp (mapLookup_mem hL)
    rw [eq_comm]
    exact mapLookup_some_of_mem h' hmem

theorem mapLookup_mapOfList (l : List (α × β)) (h : (mapKeys l).Nodup) (k : α) :
    mapLookup (mapOfList l) k = mapLookup l k :=
  mapLookup_eq_of_perm (mapOfList_keys_nodup l) (mapOfList_perm l h) k

end SortedMapLemmas

section RenameLookupLemmas

variable {α : Type*} {γ : Type*} [DecidableEq α]

theorem mapLookup_map_rename (σ : α → α) (hinj : Function.Injective σ) (k : α) :
    ∀ l : List (α × γ),
      mapLookup (l.map (fun kv => (σ kv.1, kv.2))) (σ k) = mapLookup l k
  | [] => rfl
  | (k', v') :: rest => by
    unfold mapLookup
    simp only [List.map_cons]
    by_cases hk : k = k'
    · subst hk
      simp [mapLookup]
    · have hσ : σ k ≠ σ k' := fun he => hk (hinj he)
      simp only [mapLookup, if_neg hσ, if_neg hk]
      exact mapLookup_map_rename σ hinj k rest

end RenameLookupLemmas

section ZipIndexLemmas

variable {α : Type*} [DecidableEq α]

theorem zipIdx_lookup_isSome (a : α) :
    ∀ (l : List α) (s : Nat), a ∈ l →
      (mapLookup (l.zip (List.range' s l.length)) a).isSome
  | [], _, h => absurd h (List.not_mem_nil a)
  | x :: xs, s, h => by
    rw [List.length_cons, List.range'_succ, List.zip_cons_cons]
    by_cases hx : a = x
    · simp [mapLookup, hx]
    · rw [mapLookup, if_neg hx]
      exact zipIdx_lookup_isSome a xs (s + 1) (by
        rcases List.mem_cons.mp h with rfl | hm
        · exact absurd rfl hx
        · exact hm)

theorem zipIdx_lookup_ge (a : α) :
    ∀ (l : List α) (s i : Nat),
      mapLookup (l.zip (List.range' s l.length)) a = some i → s ≤ i
  | [], s, i, h => by cases h
  | x :: xs, s, i, h => by
    rw [List.length_cons, List.range'_succ, List.zip_cons_cons] at h
    by_cases hx : a = x
    · rw [mapLookup, if_pos hx] at h
      injection h with h'
      omega
    · rw [mapLookup, if_neg hx] at h
      have := zipIdx_lookup_ge a xs (s + 1) i h
      omega

theorem zipIdx_lookup_inj (a b : α) :
    ∀ (l : List α) (s i : Nat),
      mapLookup (l.zip (List.range' s l.length)) a = some i →
      mapLookup (l.zip (List.range' s l.length)) b = some i → a = b
  | [], s, i, ha, _ => by cases ha
  | x :: xs, s, i, ha, hb => by
    rw [List.length_cons, List.range'_succ, List.zip_cons_cons] at ha hb
    by_cases hxa : a = x
    · rw [mapLookup, if_pos hxa] at ha
      injection ha with ha'
      by_cases hxb : b = x
      · rw [hxa, hxb]
      · rw [mapLookup, if_neg hxb] at hb
        have := zipIdx_lookup_ge b xs (s + 1) i hb
        omega
    · rw [mapLookup, if_neg hxa] at ha
      by_cases hxb : b = x
      · rw [mapLookup, if_pos hxb] at hb
        injection hb with hb'
        have := zipIdx_lookup_ge a xs (s + 1) i ha
        omega
      · rw [mapLookup, if_neg hxb] at hb
        exact zipIdx_lookup_inj a b xs (s + 1) i ha hb

end ZipIndexLemmas

section ExceptLemmas

variable {ε : Type*} {α : Type*} {σα : Type*} {β : Type*}

theorem exceptMapM_congr_map (f : σα → Except ε β) (g : α → σα) (f' : α → Except ε β) :
    ∀ l : List α, (∀ x ∈ l, f (g x) = f' x) → exceptMapM f (l.map g) = exceptMapM f' l
  | [], _ => rfl
  | x :: l, h => by
    simp only [List.map_cons, exceptMapM, h x (List.mem_cons_self _ _),
      exceptMapM_congr_map f g f' l (fun y hy => h y (List.mem_cons_of_mem _ hy))]

theorem exceptMapM_error_of_exists (f : α → Except ε β) (e0 : ε) :
    ∀ l : List α, (∃ x ∈ l, ∃ e, f x = .error e) →
      (∀ x ∈ l, ∀ e, f x = .error e → e = e0) → exceptMapM f l = .error e0
  | [], hex, _ => by
    obtain ⟨x, hx, _⟩ := hex
    cases hx
  | x :: l, hex, hall => by
    cases hfx : f x with
    | error e =>
      have he := hall x (List.mem_cons_self _ _) e hfx
      subst he
      simp [exceptMapM, hfx]
    | ok b =>
      obtain ⟨y, hy, e, hfy⟩ := hex
      have hytail : y ∈ l := by
        rcases List.mem_cons.mp hy with rfl | hm
        · rw [hfx] at hfy
          cases hfy
        · exact hm
      have hrec := exceptMapM_error_of_exists f e0 l ⟨y, hytail, e, hfy⟩
        (fun z hz => hall z (List.mem_cons_of_mem _ hz))
      simp [exceptMapM, hfx, hrec]

theorem exceptMapM_map_of_ok (f : α → Except ε β) (g : α → β) :
    ∀ l : List α, (∀ x ∈ l, f x = .ok (g x)) → exceptMapM f l = .ok (l.map g)
  | [], _ => rfl
  | x :: l, h => by
    simp only [exceptMapM, h x (List.mem_cons_self _ _), List.map_cons,
      exceptMapM_map_of_ok f g l (fun y hy => h y (List.mem_cons_of_mem _ hy))]

end ExceptLemmas

section RenamedMapLemmas

variable {α : Type*} {γ : Type*} [LinearOrder α] [DecidableEq α]

theorem renamed_keys_nodup (σ : α → α) (hinj : Function.Injective σ)
    (A : List (α × γ)) (hak : (mapKeys A).Nodup) :
    (mapKeys (A.map (fun kv => (σ kv.1, kv.2)))).Nodup := by
  have heq : mapKeys (A.map (fun kv => (σ kv.1, kv.2))) = (mapKeys A).map σ := by
    simp [mapKeys, List.map_map]
  rw [heq]
  exact hak.map hinj

theorem renamed_mapOfList_perm (σ : α → α) (hinj : Function.Injective σ)
    (A : List (α × γ)) (hak : (mapKeys A).Nodup) :
    (mapOfList (A.map (fun kv => (σ kv.1, kv.2)))).Perm (A.map (fun kv => (σ kv.1, kv.2))) :=
  mapOfList_perm _ (renamed_keys_nodup σ hinj A hak)

theorem mapLookup_renamed (σ : α → α) (hinj : Function.Injective σ)
    (A : List (α × γ)) (hak : (mapKeys A).Nodup) (k : α) :
    mapLookup (mapOfList (A.map (fun kv => (σ kv.1, kv.2)))) (σ k) = mapLookup A k := by
  rw [mapLookup_mapOfList _ (renamed_keys_nodup σ hinj A hak)]
  exact mapLookup_map_rename σ hinj k A

theorem renamed_vals_perm (σ : α → α) (hinj : Function.Injective σ)
    (A : List (α × γ)) (hak : (mapKeys A).Nodup) :
    ((mapOfList (A.map (fun kv => (σ kv.1, kv.2)))).map (·.2)).Perm (A.map (·.2)) := by
  have hP := (renamed_mapOfList_perm σ hinj A hak).map (·.2)
  have heq : ((A.map (fun kv => (σ kv.1, kv.2))).map (·.2) : List γ) = A.map (·.2) := by
    simp [List.map_map]
  rw [heq] at hP
  exact hP

theorem renamed_length (σ : α → α) (hinj : Function.Injective σ)
    (A : List (α × γ)) (hak : (mapKeys A).Nodup) :
    (mapOfList (A.map (fun kv => (σ kv.1, kv.2)))).length = A.length := by
  rw [(renamed_mapOfList_perm σ hinj A hak).length_eq, List.length_map]

end RenamedMapLemmas

/-! ## C5 stage lemmas: normalization is invariant under app-key renaming -/

theorem normalizeCharmEntry_rename (σ : String → String) (hinj : Function.Injective σ)
    (A : List (String × App)) (hak : (mapKeys A).Nodup)
    (idx : List (App × Nat)) (kv : String × Data) :
    normalizeCharmEntry (mapOfList (A.map (fun ka => (σ ka.1, ka.2)))) idx (σ kv.1, kv.2) =
    normalizeCharmEntry A idx kv := by
  simp only [normalizeCharmEntry, mapLookup_renamed σ hinj A hak kv.1]

theorem appIndex_lookup_isSome (appsSet : List App) (app : App) (happ : app ∈ appsSet) :
    (mapLookup (appsSet.zip (List.range appsSet.length)) app).isSome := by
  rw [List.range_eq_range']
  exact zipIdx_lookup_isSome app appsSet 0 happ

theorem appIndex_lookup_inj (appsSet : List App) (a b : App) (i : Nat)
    (ha : mapLookup (appsSet.zip (List.range appsSet.length)) a = some i)
    (hb : mapLookup (appsSet.zip (List.range appsSet.length)) b = some i) : a = b := by
  rw [List.range_eq_range'] at ha hb
  exact zipIdx_lookup_inj a b appsSet 0 i ha hb

theorem normalizeCharmEntry_detail (A : List (String × App))
    (appsSet : List App) (hsub : ∀ ka ∈ A, ka.2 ∈ appsSet)
    (kv : String × Data) (app : App) (hA : mapLookup A kv.1 = some app) :
    ∃ i, mapLookup (appsSet.zip (List.range appsSet.length)) app = some i ∧
      normalizeCharmEntry A (appsSet.zip (List.range appsSet.length)) kv = .ok (i, kv.2) := by
  have happ : app ∈ appsSet := hsub (kv.1, app) (mapLookup_mem hA)
  obtain ⟨i, hi⟩ := Option.isSome_iff_exists.mp (appIndex_lookup_isSome appsSet app happ)
  refine ⟨i, hi, ?_⟩
  simp only [normalizeCharmEntry, hA, hi]

theorem normalizeCharmEntry_no_panic (A : List (String × App))
    (appsSet : List App) (hsub : ∀ ka ∈ A, ka.2 ∈ appsSet)
    (kv : String × Data) (e : NormError)
    (he : normalizeCharmEntry A (appsSet.zip (List.range appsSet.length)) kv = .error e) :
    e = NormError.missingAppKey := by
  cases hA : mapLookup A kv.1 with
  | none =>
    unfold normalizeCharmEntry at he
    rw [hA] at he
    injection he with he'
    exact he'.symm
  | some app =>
    obtain ⟨i, _, hok⟩ := normalizeCharmEntry_detail A appsSet hsub kv app hA
    rw [hok] at he
    cases he

theorem normalizeCharm_rename (σ : String → String) (hinj : Function.Injective σ)
    (A : List (String × App)) (hak : (mapKeys A).Nodup)
    (hvals : (A.map (·.2)).Nodup)
    (appsSet : List App) (hsub : ∀ ka ∈ A, ka.2 ∈ appsSet)
    (m : KeyedCharms) (hmk : (mapKeys m).Nodup) :
    normalizeCharm (mapOfList (A.map (fun ka => (σ ka.1, ka.2))))
      (appsSet.zip (List.range appsSet.length)) (renameCharms σ m) =
    normalizeCharm A (appsSet.zip (List.range appsSet.length)) m := by
  have hm'perm : (renameCharms σ m).Perm (m.map (fun kv => (σ kv.1, kv.2))) :=
    renamed_mapOfList_perm σ hinj m hmk
  have hEntryEq : ∀ kv : String × Data,
      normalizeCharmEntry (mapOfList (A.map (fun ka => (σ ka.1, ka.2))))
        (appsSet.zip (List.range appsSet.length)) (σ kv.1, kv.2) =
      normalizeCharmEntry A (appsSet.zip (List.range appsSet.length)) kv :=
    fun kv => normalizeCharmEntry_rename σ hinj A hak _ kv
  by_cases hmiss : ∃ kv ∈ m, mapLookup A kv.1 = none
  · obtain ⟨kv0, hkv0, hnone⟩ := hmiss
    have hfail : normalizeCharmEntry A (appsSet.zip (List.range appsSet.length)) kv0 =
        .error NormError.missingAppKey := by
      unfold normalizeCharmEntry
      rw [hnone]
    have hR := exceptMapM_error_of_exists
      (normalizeCharmEntry A (appsSet.zip (List.range appsSet.length)))
      NormError.missingAppKey m ⟨kv0, hkv0, _, hfail⟩
      (fun kv _ e he => normalizeCharmEntry_no_panic A appsSet hsub kv e he)
    have hmem' : ((σ kv0.1, kv0.2) : String × Data) ∈ renameCharms σ m :=
      hm'perm.mem_iff.mpr (List.mem_map_of_mem _ hkv0)
    have hfail' : normalizeCharmEntry (mapOfList (A.map (fun ka => (σ ka.1, ka.2))))
        (appsSet.zip (List.range appsSet.length)) (σ kv0.1, kv0.2) =
        .error NormError.missingAppKey := by
      rw [hEntryEq kv0]
      exact hfail
    have hall' : ∀ x ∈ renameCharms σ m, ∀ e,
        normalizeCharmEntry (mapOfList (A.map (fun ka => (σ ka.1, ka.2))))
          (appsSet.zip (List.range appsSet.length)) x = .error e →
        e = NormError.missingAppKey := by
      intro x hx e he
      obtain ⟨kv, hkv, rfl⟩ := List.mem_map.mp (hm'perm.mem_iff.mp hx)
      rw [hEntryEq kv] at he
      exact normalizeCharmEntry_no_panic A appsSet hsub kv e he
    have hL := exceptMapM_error_of_exists
      (normalizeCharmEntry (mapOfList (A.map (fun ka => (σ ka.1, ka.2))))
        (appsSet.zip (List.range appsSet.length)))
      NormError.missingAppKey (renameCharms σ m) ⟨_, hmem', _, hfail'⟩ hall'
    unfold normalizeCharm
    rw [hL, hR]
  · push_neg at hmiss
    have hdetail : ∀ kv ∈ m, ∃ app i, mapLookup A kv.1 = some app ∧
        mapLookup (appsSet.zip (List.range appsSet.length)) app = some i ∧
        normalizeCharmEntry A (appsSet.zip (List.range appsSet.length)) kv = .ok (i, kv.2) := by
      intro kv hkv
      cases hA : mapLookup A kv.1 with
      | none => exact absurd hA (hmiss kv hkv)
      | some app =>
        obtain ⟨i, hi, hok⟩ := normalizeCharmEntry_detail A appsSet hsub kv app hA
        exact ⟨app, i, rfl, hi, hok⟩
    have hok : ∀ kv ∈ m, normalizeCharmEntry A (appsSet.zip (List.range appsSet.length)) kv =
        .ok ((fun kv => match
          normalizeCharmEntry A (appsSet.zip (List.range appsSet.length)) kv with
          | .ok v => v
          | .error _ => ((0 : Nat), Data.empty)) kv) := by
      intro kv hkv
      obtain ⟨app, i, _, _, hket⟩ := hdetail kv hkv
      simp only [hket]
    have hR := exceptMapM_map_of_ok _ _ m hok
    have hok' : ∀ x ∈ renameCharms σ m,
        normalizeCharmEntry (mapOfList (A.map (fun ka => (σ ka.1, ka.2))))
          (appsSet.zip (List.range appsSet.length)) x =
        .ok ((fun x => match
          normalizeCharmEntry (mapOfList (A.map (fun ka => (σ ka.1, ka.2))))
            (appsSet.zip (List.range appsSet.length)) x with
          | .ok v => v
          | .error _ => ((0 : Nat), Data.empty)) x) := by
      intro x hx
      obtain ⟨kv, hkv, rfl⟩ := List.mem_map.mp (hm'perm.mem_iff.mp hx)
      simp only [hEntryEq kv]
      exact hok kv hkv
    have hL := exceptMapM_map_of_ok _ _ (renameCharms σ m) hok'
    have hmapped : (m.map (fun kv => (σ kv.1, kv.2))).map (fun x => match
        normalizeCharmEntry (mapOfList (A.map (fun ka => (σ ka.1, ka.2))))
          (appsSet.zip (List.range appsSet.length)) x with
        | .ok v => v
        | .error _ => ((0 : Nat), Data.empty)) = m.map (fun kv => match
        normalizeCharmEntry A (appsSet.zip (List.range appsSet.length)) kv with
        | .ok v => v
        | .error _ => ((0 : Nat), Data.empty)) := by
      rw [List.map_map]
      apply List.map_congr_left
      intro kv _
      simp only [Function.comp, hEntryEq kv]
    have hpermG : ((renameCharms σ m).map (fun x => match
        normalizeCharmEntry (mapOfList (A.map (fun ka => (σ ka.1, ka.2))))
          (appsSet.zip (List.range appsSet.length)) x with
        | .ok v => v
        | .error _ => ((0 : Nat), Data.empty))).Perm
        (m.map (fun kv => match
          normalizeCharmEntry A (appsSet.zip (List.range appsSet.length)) kv with
          | .ok v => v
          | .error _ => ((0 : Nat), Data.empty))) := by
      rw [← hmapped]
      exact hm'perm.map _
    have hkeysnd : (mapKeys (m.map (fun kv => match
        normalizeCharmEntry A (appsSet.zip (List.range appsSet.length)) kv with
        | .ok v => v
        | .error _ => ((0 : Nat), Data.empty)))).Nodup := by
      rw [mapKeys, List.map_map]
      apply List.Nodup.map_on ?_ (List.Nodup.of_map _ hmk)
      intro x hx y hy hgeq
      obtain ⟨ax, ix, hax, hix, hkx⟩ := hdetail x hx
      obtain ⟨ay, iy, hay, hiy, hky⟩ := hdetail y hy
      simp only [Function.comp, hkx, hky] at hgeq
      obtain rfl : ix = iy := hgeq
      have haxy : ax = ay := appIndex_lookup_inj appsSet ax ay ix hix hiy
      subst haxy
      have hpair : ((x.1, ax) : String × App) = (y.1, ax) :=
        List.inj_on_of_nodup_map hvals (mapLookup_mem hax) (mapLookup_mem hay) rfl
      have hkeq : x.1 = y.1 := (Prod.ext_iff.mp hpair).1
      exact List.inj_on_of_nodup_map hmk hx hy hkeq
    have hfin := (mapOfList_eq_of_perm _ _ hkeysnd hpermG.symm).symm
    simp only [normalizeCharm, hL, hR, hfin]

theorem app_inputs_rename (σ : String → String) (hinj : Function.Injective σ)
    (A : List (String × App)) (hak : (mapKeys A).Nodup) (hvals : (A.map (·.2)).Nodup)
    (I : List (String × Data)) (hik : (mapKeys I).Nodup) :
    app_inputs (mapOfList (A.map (fun ka => (σ ka.1, ka.2))))
      (mapOfList (I.map (fun kv => (σ kv.1, kv.2)))) = app_inputs A I := by
  unfold app_inputs
  have hAperm := renamed_mapOfList_perm σ hinj A hak
  have hmapped : (A.map (fun ka => (σ ka.1, ka.2))).map (fun ka =>
      ((ka.2 : App), (mapLookup (mapOfList (I.map (fun kv => (σ kv.1, kv.2)))) ka.1).getD
        Data.empty)) =
      A.map (fun ka => ((ka.2 : App), (mapLookup I ka.1).getD Data.empty)) := by
    rw [List.map_map]
    apply List.map_congr_left
    intro ka _
    simp only [Function.comp]
    rw [mapLookup_renamed σ hinj I hik ka.1]
  have hperm2 : ((mapOfList (A.map (fun ka => (σ ka.1, ka.2)))).map (fun ka =>
      ((ka.2 : App), (mapLookup (mapOfList (I.map (fun kv => (σ kv.1, kv.2)))) ka.1).getD
        Data.empty))).Perm
      (A.map (fun ka => ((ka.2 : App), (mapLookup I ka.1).getD Data.empty))) := by
    rw [← hmapped]
    exact hAperm.map _
  have hkeysnd : (mapKeys (A.map (fun ka =>
      ((ka.2 : App), (mapLookup I ka.1).getD Data.empty)))).Nodup := by
    rw [mapKeys, List.map_map]
    exact hvals
  exact (mapOfList_eq_of_perm _ _ hkeysnd hperm2.symm).symm

/-- **C5**: normalization is independent of the string keys naming the apps.
Renaming the app keys by any injective `σ` — consistently across the `apps`
map, the public/private input maps and every charm map — yields the same
result from `Spell::normalized`: the same `NormalizedSpell` (identical
`app_public_inputs` and numeric charm indices in `tx.outs`, which derive
solely from the total order on `App` values), the same private-input map and
the same beam-hint map.  The nodup hypotheses state the `BTreeMap` key
invariant of the source maps. -/
theorem normalized_rename_invariant
    (σ : String → String) (hinj : Function.Injective σ) (s : Spell)
    (hak : (mapKeys s.apps).Nodup)
    (hpub : ∀ m, s.public_args = some m → (mapKeys m).Nodup)
    (hpriv : ∀ m, s.private_args = some m → (mapKeys m).Nodup)
    (houts : ∀ o ∈ s.outs, ∀ m, o.charms = some m → (mapKeys m).Nodup) :
    (renameSpell σ s).normalized = s.normalized := by
  have happsSetEq : setOfList ((mapOfList (s.apps.map (fun ka => (σ ka.1, ka.2)))).map (·.2)) =
      setOfList (s.apps.map (·.2)) := by
    apply setOfList_eq_of_mem
    intro a
    exact (renamed_vals_perm σ hinj s.apps hak).mem_iff
  have hlenEq : (mapOfList (s.apps.map (fun ka => (σ ka.1, ka.2)))).length = s.apps.length :=
    renamed_length σ hinj s.apps hak
  have hinsEq : exceptMapM getUtxoId
      (s.ins.map (fun i => { i with charms := i.charms.map (renameCharms σ) })) =
      exceptMapM getUtxoId s.ins :=
    exceptMapM_congr_map _ _ _ s.ins (fun i _ => rfl)
  have hhintsEq : exceptMapM hintPair
      (s.ins.map (fun i => { i with charms := i.charms.map (renameCharms σ) })) =
      exceptMapM hintPair s.ins :=
    exceptMapM_congr_map _ _ _ s.ins (fun i _ => rfl)
  have hrefsMapEq : exceptMapM getUtxoId
      ((s.refs.map (List.map (fun i =>
        { i with charms := i.charms.map (renameCharms σ) }))).getD []) =
      exceptMapM getUtxoId (s.refs.getD []) := by
    cases s.refs with
    | none => rfl
    | some rl =>
      simp only [Option.map_some', Option.getD_some]
      exact exceptMapM_congr_map _ _ _ rl (fun i _ => rfl)
  have hrefsLenEq : ((s.refs.map (List.map (fun i =>
      { i with charms := i.charms.map (renameCharms σ) }))).getD []).length =
      (s.refs.getD []).length := by
    cases s.refs with
    | none => rfl
    | some rl => simp
  have hbeamEq : ((s.outs.map (fun o =>
      { o with charms := o.charms.map (renameCharms σ) })).enum.filterMap
        (fun p => p.2.beam_to.map fun b => (p.1, b))) =
      s.outs.enum.filterMap (fun p => p.2.beam_to.map fun b => (p.1, b)) := by
    rw [List.enum_map, List.filterMap_map]
    rfl
  unfold Spell.normalized
  simp only [renameSpell]
  simp only [happsSetEq, hlenEq, hinsEq, hhintsEq, hrefsMapEq, hrefsLenEq, hbeamEq]
  by_cases hdup : (setOfList (s.apps.map (·.2))).length ≠ s.apps.length
  · rw [if_pos hdup, if_pos hdup]
  · have hvals : (s.apps.map (·.2)).Nodup := by
      push_neg at hdup
      apply nodup_of_setOfList_length
      rw [hdup, List.length_map]
    have hsub : ∀ ka ∈ s.apps, ka.2 ∈ setOfList (s.apps.map (·.2)) := fun ka hka =>
      (mem_setOfList _ _).mpr (List.mem_map_of_mem _ hka)
    have houtsEq : exceptMapM (fun o => normalizeCharm
        (mapOfList (s.apps.map (fun ka => (σ ka.1, ka.2))))
        ((setOfList (s.apps.map (·.2))).zip
          (List.range (setOfList (s.apps.map (·.2))).length))
        (o.charms.getD []))
        (s.outs.map (fun o => { o with charms := o.charms.map (renameCharms σ) })) =
        exceptMapM (fun o => normalizeCharm s.apps
          ((setOfList (s.apps.map (·.2))).zip
            (List.range (setOfList (s.apps.map (·.2))).length))
          (o.charms.getD [])) s.outs := by
      apply exceptMapM_congr_map
      intro o ho
      cases hc : o.charms with
      | none =>
        simp only [hc, Option.map_none', Option.getD_none]
        rfl
      | some m =>
        simp only [hc, Option.map_some', Option.getD_some]
        exact normalizeCharm_rename σ hinj s.apps hak hvals _ hsub m (houts o ho m hc)
    have hpubEq : app_inputs (mapOfList (s.apps.map (fun ka => (σ ka.1, ka.2))))
        ((s.public_args.map (fun m => mapOfList (m.map fun kv => (σ kv.1, kv.2)))).getD []) =
        app_inputs s.apps (s.public_args.getD []) := by
      cases hpa : s.public_args with
      | none =>
        simp only [Option.map_none', Option.getD_none]
        exact app_inputs_rename σ hinj s.apps hak hvals [] (by simp [mapKeys])
      | some I =>
        simp only [Option.map_some', Option.getD_some]
        exact app_inputs_rename σ hinj s.apps hak hvals I (hpub I hpa)
    have hprivEq : app_inputs (mapOfList (s.apps.map (fun ka => (σ ka.1, ka.2))))
        ((s.private_args.map (fun m => mapOfList (m.map fun kv => (σ kv.1, kv.2)))).getD []) =
        app_inputs s.apps (s.private_args.getD []) := by
      cases hpa : s.private_args with
      | none =>
        simp only [Option.map_none', Option.getD_none]
        exact app_inputs_rename σ hinj s.apps hak hvals [] (by simp [mapKeys])
      | some I =>
        simp only [Option.map_some', Option.getD_some]
        exact app_inputs_rename σ hinj s.apps hak hvals I (hpriv I hpa)
    rw [if_neg hdup, if_neg hdup]
    simp only [houtsEq, hpubEq, hprivEq]

theorem normalized_rename_invariant_witness :
    (mapKeys exSrcSpell.apps).Nodup ∧
    (renameSpell (Equiv.swap "$A" "$B") exSrcSpell).normalized = exSrcSpell.normalized :=
  ⟨by decide,
   normalized_rename_invariant (Equiv.swap "$A" "$B") (Equiv.swap "$A" "$B").injective
     exSrcSpell (by decide)
     (fun m h => by
       have h2 : [("$B", ([7] : Data))] = m := Option.some.inj h
       rw [← h2]
       decide)
     (fun m h => Option.noConfusion h)
     (fun o ho m h => by
       simp only [exSrcSpell, List.mem_singleton] at ho
       subst ho
       have h2 : [("$A", ([1] : Data)), ("$B", ([2] : Data))] = m := Option.some.inj h
       rw [← h2]
       decide)⟩

end Charms
